import Mathlib

/-!
# Verification of the maze-game core (`maze_game.py`)

This file gives a shallow embedding of the core of the maze game:
the cell grid, the randomized depth-first ("backtracking") maze generator,
the breadth-first-search pathfinder, the session state machine
(`load_level` / `reset_game`), and the player/agent movement handlers.

Modelling conventions:
* Python lists of cells become `List Cell`; in-place attribute mutation
  becomes `List.set` with an updated record (`modifyCell`).
* `random.choice(xs)` is modelled by an arbitrary oracle `rand : Nat → Nat`
  consumed one value per loop iteration: the chosen element is
  `xs[rand k % xs.length]`.  Quantifying over all oracles covers every
  possible sequence of random choices.  `random.choice(range(n))` is
  modelled by an arbitrary `re : Nat` reduced mod `n`, and
  `random.randrange(200, 300)` by an arbitrary `r` with `200 ≤ r < 300`.
* `pygame.time.get_ticks()` is an explicit parameter `now`.
* The two unbounded `while` loops (generation and BFS) are embedded with
  explicit fuel; the development proves that the supplied fuel is never
  exhausted, so the fueled functions agree with the Python loops.
* Python's implicit `return None` fall-through of `compute_path` is the
  `none` value of `Option (List Nat)`; the function has no exceptional exit
  in the source, so the embedding is a total function into `Option`.
* `self.agent_path` can hold either a list or Python `None` (the result of
  `compute_path`), so the field has type `Option (List Nat)`; Python
  truthiness of that field is `pathTruthy`.
* Player/agent/exit cell indices are `Int`, as in Python, so that the
  unguarded arithmetic of `handle_player_movement` is represented exactly;
  list subscription with a possibly negative index follows Python semantics
  (`pyGet`), returning `none` where Python would raise `IndexError`.
-/

/-! ## Constants and the cell record (source lines 24-62) -/

def WINDOW_SIZE : Nat := 600
def LEVELS_TO_WIN : Nat := 25
def OFFSET : Nat := 40
def FPS : Nat := 60

/-- Movement direction codes (source lines 42-46). -/
def UP : Int := 0
def DOWN : Int := 1
def LEFT : Int := 2
def RIGHT : Int := 3
def WAITING : Int := -1

/-- A single cell of the world grid (source class `Cell`).  The four wall
flags mean "a wall is present on this side"; `visited` is the transient
flag used by the generator. -/
structure Cell where
  row : Nat
  col : Nat
  x_pos : Nat
  y_pos : Nat
  visited : Bool
  north : Bool
  south : Bool
  east : Bool
  west : Bool
deriving Repr, DecidableEq

instance : Inhabited Cell :=
  ⟨{ row := 0, col := 0, x_pos := 0, y_pos := 0, visited := true,
     north := true, south := true, east := true, west := true }⟩

/-- `Cell.__init__` (source lines 50-62): all four walls closed, not visited. -/
def Cell.init (row col size : Nat) (offset : Nat × Nat) : Cell :=
  { row := row, col := col
    x_pos := col * size + offset.1
    y_pos := row * size + offset.2
    visited := false
    north := true, south := true, east := true, west := true }

/-- Read the cell list at an index known (by the surrounding invariants) to be
in range; out-of-range reads return the `Inhabited` default and never occur in
any state reachable by the verified code paths. -/
def cellAt (cells : List Cell) (i : Nat) : Cell :=
  cells.getD i default

/-- Update one cell of the list in place (`self.maze_cells[i].attr = v`). -/
def modifyCell (cells : List Cell) (i : Nat) (f : Cell → Cell) : List Cell :=
  cells.set i (f (cellAt cells i))

/-! ## Generator primitives (source lines 110-167) -/

/-- `MazeGame.get_unvisited_neighbors` (source lines 139-152): the unvisited
grid neighbours of `cell`, in the source's order UP, DOWN, LEFT, RIGHT,
each paired with its direction code. -/
def get_unvisited_neighbors (cols rows : Nat) (cells : List Cell) (cell : Nat) :
    List (Nat × Int) :=
  let row := cell / cols
  let col := cell % cols
  (if 0 < row ∧ ¬(cellAt cells (cell - cols)).visited then [(cell - cols, UP)] else []) ++
  (if row < rows - 1 ∧ ¬(cellAt cells (cell + cols)).visited then [(cell + cols, DOWN)] else []) ++
  (if 0 < col ∧ ¬(cellAt cells (cell - 1)).visited then [(cell - 1, LEFT)] else []) ++
  (if col < cols - 1 ∧ ¬(cellAt cells (cell + 1)).visited then [(cell + 1, RIGHT)] else [])

/-- `MazeGame.remove_adj_walls` (source lines 155-167): open the shared wall
between `cell` and `neighbor` by clearing the matching pair of flags. -/
def remove_adj_walls (cells : List Cell) (cell neighbor : Nat) (direction : Int) :
    List Cell :=
  if direction = UP then
    modifyCell (modifyCell cells cell (fun c => { c with north := false }))
      neighbor (fun c => { c with south := false })
  else if direction = DOWN then
    modifyCell (modifyCell cells cell (fun c => { c with south := false }))
      neighbor (fun c => { c with north := false })
  else if direction = LEFT then
    modifyCell (modifyCell cells cell (fun c => { c with west := false }))
      neighbor (fun c => { c with east := false })
  else if direction = RIGHT then
    modifyCell (modifyCell cells cell (fun c => { c with east := false }))
      neighbor (fun c => { c with west := false })
  else cells

/-- State of the `while` loop of `MazeGame.back_tracker` (source lines 120-136):
the cell list, the explicit stack, the current cell and the visited counter. -/
structure BTState where
  cells : List Cell
  stack : List Nat
  current : Nat
  vcount : Nat
deriving Repr

/-- The body of the `if neighbors:` branch (source lines 129-134): choose
`next_cell, direction = random.choice(neighbors)`, open the shared wall, push
the current cell, move to the chosen cell, mark it visited, bump the count. -/
def btVisit (cols rows : Nat) (rand : Nat → Nat) (k : Nat) (s : BTState) : BTState :=
  let neighbors := get_unvisited_neighbors cols rows s.cells s.current
  let pick := neighbors.getD (rand k % neighbors.length) (0, 0)
  let next_cell := pick.1
  let direction := pick.2
  let cells1 := remove_adj_walls s.cells s.current next_cell direction
  let cells2 := modifyCell cells1 next_cell (fun c => { c with visited := true })
  { cells := cells2, stack := s.current :: s.stack,
    current := next_cell, vcount := s.vcount + 1 }

/-- The `while visited_cells < self.n_cells` loop of `back_tracker`
(source lines 126-136), with explicit fuel and the randomness oracle `rand`
consumed at index `k`.  The branch where both the neighbour list and the
stack are empty re-enters the loop unchanged, exactly as the Python loop
would spin; the development proves this branch is unreachable and that the
fuel provided by `back_tracker` is never exhausted. -/
def btLoop (cols rows n_cells : Nat) (rand : Nat → Nat) :
    Nat → Nat → BTState → BTState
  | 0, _, s => s
  | fuel + 1, k, s =>
    if s.vcount < n_cells then
      if (get_unvisited_neighbors cols rows s.cells s.current).length ≠ 0 then
        btLoop cols rows n_cells rand fuel (k + 1) (btVisit cols rows rand k s)
      else
        match s.stack with
        | c :: rest =>
            btLoop cols rows n_cells rand fuel (k + 1)
              { cells := s.cells, stack := rest, current := c, vcount := s.vcount }
        | [] => btLoop cols rows n_cells rand fuel (k + 1) s
    else s

/-- `MazeGame.back_tracker` (source lines 120-136): mark cell 0 visited and
run the loop.  Fuel `2 * n_cells` strictly exceeds the loop's iteration
measure, as proved below. -/
def back_tracker (cols rows n_cells : Nat) (cells : List Cell) (rand : Nat → Nat) :
    List Cell :=
  let cells0 := modifyCell cells 0 (fun c => { c with visited := true })
  (btLoop cols rows n_cells rand (2 * n_cells) 0
    { cells := cells0, stack := [], current := 0, vcount := 1 }).cells

/-- The nested `for row / for col` loops of `generate_maze`
(source lines 113-115): a fresh all-walled grid in row-major order. -/
def init_cells (rows cols cell_size : Nat) (offset : Nat × Nat) : List Cell :=
  (List.range rows).flatMap fun row =>
    (List.range cols).map fun col => Cell.init row col cell_size offset

/-! ## Pathfinder (source lines 186-223) -/

/-- `MazeGame.get_neighbors` (source lines 209-223): neighbours of `cell`
accessible through an open wall of `cell`, with bounds checks. -/
def get_neighbors (cols rows : Nat) (cells : List Cell) (cell : Nat) :
    List (Nat × Int) :=
  let row := cell / cols
  let col := cell % cols
  let walls := cellAt cells cell
  (if ¬walls.north ∧ 0 < row then [(cell - cols, UP)] else []) ++
  (if ¬walls.south ∧ row < rows - 1 then [(cell + cols, DOWN)] else []) ++
  (if ¬walls.west ∧ 0 < col then [(cell - 1, LEFT)] else []) ++
  (if ¬walls.east ∧ col < cols - 1 then [(cell + 1, RIGHT)] else [])

/-- The `while current != -1` reconstruction loop of `compute_path`
(source lines 196-199): follow parent pointers, prepending each cell.
The fuel passed by `compute_path` always suffices, as proved below. -/
def bfs_reconstruct (parent : List Int) : Nat → Int → List Nat → List Nat
  | 0, _, path => path
  | fuel + 1, current, path =>
    if current = -1 then path
    else bfs_reconstruct parent fuel (parent.getD current.toNat (-1))
      (current.toNat :: path)

/-- One neighbour-scan step of the BFS `for` loop (source lines 202-206):
skip visited neighbours, otherwise enqueue, mark visited and set the parent. -/
def bfsScan (current : Nat) (st : List Nat × List Bool × List Int) (nb : Nat × Int) :
    List Nat × List Bool × List Int :=
  if st.2.1.getD nb.1 true then st
  else (st.1 ++ [nb.1], st.2.1.set nb.1 true, st.2.2.set nb.1 (Int.ofNat current))

/-- The `while not queue.empty()` loop of `compute_path` (source lines
193-206), with explicit fuel.  An empty queue falls through to `none`,
exactly like the Python function's implicit `return None`. -/
def bfsLoop (cols rows n_cells : Nat) (cells : List Cell) (target_cell : Nat) :
    Nat → List Nat → List Bool → List Int → Option (List Nat)
  | 0, _, _, _ => none
  | fuel + 1, queue, visited, parent =>
    match queue with
    | [] => none
    | current :: rest =>
      if current = target_cell then
        some (bfs_reconstruct parent (n_cells + 1) (Int.ofNat current) [])
      else
        let st := (get_neighbors cols rows cells current).foldl
          (bfsScan current) (rest, visited, parent)
        bfsLoop cols rows n_cells cells target_cell fuel st.1 st.2.1 st.2.2

/-- `MazeGame.compute_path` (source lines 186-206): breadth-first search from
`start_cell` to `target_cell` over the open-wall graph, returning the
reconstructed path, or `none` (Python `None`) if the queue drains first. -/
def compute_path (cols rows n_cells : Nat) (cells : List Cell)
    (start_cell target_cell : Nat) : Option (List Nat) :=
  let queue := [start_cell]
  let visited := (List.replicate n_cells false).set start_cell true
  let parent := List.replicate n_cells (-1 : Int)
  bfsLoop cols rows n_cells cells target_cell (2 * n_cells + 1) queue visited parent

/-! ## The game state and session operations (source lines 64-300) -/

/-- The mutable state of `MazeGame` (source `__init__`, lines 76-98), minus
the pygame rendering handles (screen, fonts, clock), which are out of the
core. -/
structure MazeGame where
  cols : Nat
  rows : Nat
  n_cells : Nat
  delay : Int
  level : Nat
  elapsed_time : Int
  start_time : Int
  delay_time : Int
  quit : Bool
  game_over : Bool
  current_cell : Int
  agent_cell : Int
  exit_cell : Int
  player_next_move : Int
  agent_path : Option (List Nat)
  maze_cells : List Cell
  offset : Nat × Nat
  cell_size : Nat
deriving Repr

/-- `MazeGame.calculate_cell_size_and_offsets` (source lines 102-108). -/
def calculate_cell_size_and_offsets (g : MazeGame) : MazeGame :=
  let cell_size := min ((WINDOW_SIZE - OFFSET * 2) / g.cols)
    ((WINDOW_SIZE - OFFSET * 2) / g.rows)
  let maze_width := g.cols * cell_size
  let maze_height := g.rows * cell_size
  { g with cell_size := cell_size
           offset := ((WINDOW_SIZE - maze_width) / 2, (WINDOW_SIZE - maze_height) / 2) }

/-- `MazeGame.generate_maze` (source lines 110-117). -/
def generate_maze (g : MazeGame) (rand : Nat → Nat) : MazeGame :=
  let g := calculate_cell_size_and_offsets g
  let carved := back_tracker g.cols g.rows g.n_cells
    (init_cells g.rows g.cols g.cell_size g.offset) rand
  { g with maze_cells := carved }

/-- `MazeGame.load_level` (source lines 169-183).  `rand` drives the
generator's `random.choice`, `re` drives `random.choice(range(n_cells))`
for the exit cell, `now` is `pygame.time.get_ticks()`. -/
def load_level (g : MazeGame) (rand : Nat → Nat) (re : Nat) (now : Int) : MazeGame :=
  let g := { g with level := g.level + 1, cols := g.cols + 1, rows := g.rows + 1 }
  let g := { g with n_cells := g.cols * g.rows }
  let g := generate_maze g rand
  let exit := re % g.n_cells
  let g := { g with current_cell := 0, exit_cell := Int.ofNat exit, agent_cell := 0 }
  let path := compute_path g.cols g.rows g.n_cells g.maze_cells 0 exit
  let g := { g with agent_path := path }
  { g with start_time := now, delay_time := now }

/-- `MazeGame.reset_game` (source lines 290-300): reset the session fields to
their level-0 values, then run the ordinary level-load sequence. -/
def reset_game (g : MazeGame) (rand : Nat → Nat) (re : Nat) (now : Int) : MazeGame :=
  let g := { g with cols := 3, rows := 3, level := 0 }
  let g := { g with n_cells := g.cols * g.rows }
  let g := { g with current_cell := 0, agent_cell := 0, exit_cell := 0,
                    player_next_move := WAITING, agent_path := some [] }
  load_level g rand re now

/-- The state built by `MazeGame.__init__` (source lines 76-99): the field
initialisations followed by the first `load_level`. -/
def initGame (rand : Nat → Nat) (re : Nat) (now : Int) : MazeGame :=
  load_level
    { cols := 3, rows := 3, n_cells := 3 * 3, delay := 300, level := 0
      elapsed_time := 0, start_time := now, delay_time := now
      quit := false, game_over := false
      current_cell := 0, agent_cell := 0, exit_cell := 0
      player_next_move := WAITING, agent_path := some []
      maze_cells := [], offset := (0, 0), cell_size := 50 } rand re now

/-! ## Movement handlers (source lines 226-243) -/

/-- Python list subscription `cells[i]` for an `Int` index: non-negative
indices read from the front, indices in `[-len, -1]` wrap from the end,
anything else raises `IndexError` (modelled as `none`). -/
def pyGet (cells : List Cell) (i : Int) : Option Cell :=
  if 0 ≤ i then cells[i.toNat]?
  else if 0 ≤ i + cells.length then cells[(i + cells.length).toNat]?
  else none

/-- `MazeGame.handle_player_movement` (source lines 226-236).  Each guard
`self.player_next_move == D and not self.maze_cells[self.current_cell].wall`
subscripts the cell list only when the direction matches, so the lookup
happens exactly when the pending move is one of the four directions;
`none` models the `IndexError` Python would raise on an out-of-range
current cell.  In all non-error cases the pending move is reset to
`WAITING`. -/
def handle_player_movement (g : MazeGame) : Option MazeGame :=
  if g.player_next_move = UP then
    (pyGet g.maze_cells g.current_cell).map fun c =>
      if c.north = false then
        { g with current_cell := g.current_cell - g.cols, player_next_move := WAITING }
      else { g with player_next_move := WAITING }
  else if g.player_next_move = DOWN then
    (pyGet g.maze_cells g.current_cell).map fun c =>
      if c.south = false then
        { g with current_cell := g.current_cell + g.cols, player_next_move := WAITING }
      else { g with player_next_move := WAITING }
  else if g.player_next_move = LEFT then
    (pyGet g.maze_cells g.current_cell).map fun c =>
      if c.west = false then
        { g with current_cell := g.current_cell - 1, player_next_move := WAITING }
      else { g with player_next_move := WAITING }
  else if g.player_next_move = RIGHT then
    (pyGet g.maze_cells g.current_cell).map fun c =>
      if c.east = false then
        { g with current_cell := g.current_cell + 1, player_next_move := WAITING }
      else { g with player_next_move := WAITING }
  else some { g with player_next_move := WAITING }

/-- Python truthiness of `self.agent_path`: `None` and `[]` are falsy. -/
def pathTruthy : Option (List Nat) → Bool
  | none => false
  | some l => !l.isEmpty

/-- `MazeGame.handle_agent_movement` (source lines 238-243).  `r` is the
fresh `random.randrange(200, 300)` sample of this tick and `now` is
`pygame.time.get_ticks()` (called twice in the source within one tick;
both calls are modelled by the same `now`). -/
def handle_agent_movement (g : MazeGame) (now : Int) (r : Int) : MazeGame :=
  let g := { g with delay := r }
  if now - g.delay_time ≥ g.delay ∧ pathTruthy g.agent_path then
    match g.agent_path with
    | some (c :: rest) =>
        { g with agent_cell := Int.ofNat c, agent_path := some rest, delay_time := now }
    | _ => g
  else g

/-! ## Derived notions used by the specification claims -/

/-- Number of cells currently marked visited. -/
def countVisited (cells : List Cell) : Nat :=
  cells.countP (fun c => c.visited)

/-- Wall-flag symmetry (claim C8): matching flags agree on every pair of
vertically respectively horizontally adjacent cells. -/
def WallSym (cols rows : Nat) (cells : List Cell) : Prop :=
  ∀ i < rows * cols,
    (i / cols + 1 < rows → (cellAt cells i).south = (cellAt cells (i + cols)).north) ∧
    (i % cols + 1 < cols → (cellAt cells i).east = (cellAt cells (i + 1)).west)

/-- Boundary walls (claim C9): every wall on the outer edge of the grid is
closed. -/
def BoundaryClosed (cols rows : Nat) (cells : List Cell) : Prop :=
  ∀ i < rows * cols,
    (i / cols = 0 → (cellAt cells i).north = true) ∧
    (i / cols = rows - 1 → (cellAt cells i).south = true) ∧
    (i % cols = 0 → (cellAt cells i).west = true) ∧
    (i % cols = cols - 1 → (cellAt cells i).east = true)

/-- One directed step of passability as the pathfinder sees it: `j` occurs in
`get_neighbors` of `i`. -/
def openStep (cols rows : Nat) (cells : List Cell) (i j : Nat) : Prop :=
  ∃ d, (j, d) ∈ get_neighbors cols rows cells i

/-- Reachability through open walls, the closure of `openStep`. -/
def Reach (cols rows : Nat) (cells : List Cell) : Nat → Nat → Prop :=
  Relation.ReflTransGen (openStep cols rows cells)

/-- All cells of a fresh grid are unvisited with all four walls closed. -/
def AllClosed (cells : List Cell) : Prop :=
  ∀ c ∈ cells, c.visited = false ∧ c.north = true ∧ c.south = true ∧
    c.east = true ∧ c.west = true

/-! ## Small arithmetic and list lemmas -/

theorem cellAt_eq_getD (cells : List Cell) (i : Nat) :
    cellAt cells i = (cells[i]?).getD default :=
  List.getD_eq_getElem?_getD cells i default

theorem length_modifyCell (cells : List Cell) (i : Nat) (f : Cell → Cell) :
    (modifyCell cells i f).length = cells.length :=
  List.length_set ..

theorem cellAt_modifyCell_self (cells : List Cell) (i : Nat) (f : Cell → Cell)
    (h : i < cells.length) :
    cellAt (modifyCell cells i f) i = f (cellAt cells i) := by
  rw [cellAt_eq_getD, cellAt_eq_getD, modifyCell, cellAt_eq_getD,
    List.getElem?_set_self h]
  rfl

theorem cellAt_modifyCell_ne (cells : List Cell) (i j : Nat) (f : Cell → Cell)
    (h : i ≠ j) :
    cellAt (modifyCell cells i f) j = cellAt cells j := by
  rw [cellAt_eq_getD, cellAt_eq_getD, modifyCell, List.getElem?_set_ne h]

theorem length_remove_adj_walls (cells : List Cell) (cell neighbor : Nat) (d : Int) :
    (remove_adj_walls cells cell neighbor d).length = cells.length := by
  unfold remove_adj_walls
  split
  · simp only [length_modifyCell]
  · split
    · simp only [length_modifyCell]
    · split
      · simp only [length_modifyCell]
      · split
        · simp only [length_modifyCell]
        · rfl

/-- Row–column decomposition bounds. -/
theorem row_lt (cols rows i : Nat) (hc : 0 < cols) (h : i < rows * cols) :
    i / cols < rows := by
  rw [Nat.mul_comm] at h
  exact Nat.div_lt_of_lt_mul h

theorem col_lt (cols i : Nat) (hc : 0 < cols) : i % cols < cols :=
  Nat.mod_lt _ hc

theorem idx_lt_of_row_lt (cols rows i : Nat) (hc : 0 < cols)
    (h : i / cols < rows) : i < rows * cols := by
  have h1 := Nat.div_add_mod i cols
  have h2 := Nat.mod_lt i hc
  have h3 : cols * (i / cols + 1) ≤ cols * rows := Nat.mul_le_mul_left _ h
  have h4 : cols * (i / cols + 1) = cols * (i / cols) + cols := Nat.mul_succ ..
  have h5 : cols * rows = rows * cols := Nat.mul_comm ..
  omega

/-- The UP neighbour: arithmetic facts when `0 < i / cols`. -/
theorem up_arith (cols i : Nat) (hc : 0 < cols) (h : 0 < i / cols) :
    cols ≤ i ∧ (i - cols) + cols = i ∧ (i - cols) / cols + 1 = i / cols ∧
    (i - cols) % cols = i % cols := by
  have hle : cols ≤ i := by
    by_contra hlt
    rw [Nat.div_eq_of_lt (show i < cols by omega)] at h
    omega
  refine ⟨hle, Nat.sub_add_cancel hle, ?_, ?_⟩
  · conv_rhs => rw [← Nat.sub_add_cancel hle]
    rw [Nat.add_div_right _ hc]
  · conv_rhs => rw [← Nat.sub_add_cancel hle]
    rw [Nat.add_mod_right]

/-- The DOWN neighbour: arithmetic facts. -/
theorem down_arith (cols i : Nat) (hc : 0 < cols) :
    (i + cols) / cols = i / cols + 1 ∧ (i + cols) % cols = i % cols := by
  constructor
  · simp [Nat.add_div_right _ hc]
  · simp [Nat.add_mod_right]

/-- The LEFT neighbour: arithmetic facts when `0 < i % cols`. -/
theorem left_arith (cols i : Nat) (hc : 0 < cols) (h : 0 < i % cols) :
    (i - 1) / cols = i / cols ∧ (i - 1) % cols + 1 = i % cols := by
  have hd := Nat.div_add_mod i cols
  have hml : i % cols < cols := Nat.mod_lt _ hc
  have hi : i - 1 = cols * (i / cols) + (i % cols - 1) := by omega
  constructor
  · rw [hi, Nat.mul_add_div hc,
      Nat.div_eq_of_lt (show i % cols - 1 < cols by omega), Nat.add_zero]
  · rw [hi, Nat.mul_add_mod, Nat.mod_eq_of_lt (show i % cols - 1 < cols by omega)]
    omega

/-- The RIGHT neighbour: arithmetic facts when `i % cols + 1 < cols`. -/
theorem right_arith (cols i : Nat) (h : i % cols + 1 < cols) :
    (i + 1) / cols = i / cols ∧ (i + 1) % cols = i % cols + 1 := by
  have hc : 0 < cols := by omega
  have hd := Nat.div_add_mod i cols
  have hi : i + 1 = cols * (i / cols) + (i % cols + 1) := by omega
  constructor
  · rw [hi, Nat.mul_add_div hc, Nat.div_eq_of_lt h, Nat.add_zero]
  · rw [hi, Nat.mul_add_mod, Nat.mod_eq_of_lt h]

/-! ## Membership characterizations of the neighbour lists -/

theorem mem_ite_singleton {α : Type} (P : Prop) [Decidable P] (x a : α) :
    (a ∈ if P then [x] else []) ↔ P ∧ a = x := by
  split <;> simp_all

theorem ite_singleton_eq_nil {α : Type} (P : Prop) [Decidable P] (x : α) :
    ((if P then [x] else []) = []) ↔ ¬P := by
  split <;> simp_all

theorem mem_unvis_iff (cols rows : Nat) (cells : List Cell) (cell j : Nat) (d : Int) :
    (j, d) ∈ get_unvisited_neighbors cols rows cells cell ↔
      (0 < cell / cols ∧ (cellAt cells (cell - cols)).visited = false ∧
        j = cell - cols ∧ d = UP) ∨
      (cell / cols < rows - 1 ∧ (cellAt cells (cell + cols)).visited = false ∧
        j = cell + cols ∧ d = DOWN) ∨
      (0 < cell % cols ∧ (cellAt cells (cell - 1)).visited = false ∧
        j = cell - 1 ∧ d = LEFT) ∨
      (cell % cols < cols - 1 ∧ (cellAt cells (cell + 1)).visited = false ∧
        j = cell + 1 ∧ d = RIGHT) := by
  simp only [get_unvisited_neighbors, List.mem_append, mem_ite_singleton,
    Prod.mk.injEq, Bool.not_eq_true]
  tauto

theorem unvis_nil_iff (cols rows : Nat) (cells : List Cell) (cell : Nat) :
    get_unvisited_neighbors cols rows cells cell = [] ↔
      (0 < cell / cols → (cellAt cells (cell - cols)).visited = true) ∧
      (cell / cols < rows - 1 → (cellAt cells (cell + cols)).visited = true) ∧
      (0 < cell % cols → (cellAt cells (cell - 1)).visited = true) ∧
      (cell % cols < cols - 1 → (cellAt cells (cell + 1)).visited = true) := by
  simp only [get_unvisited_neighbors, List.append_eq_nil, ite_singleton_eq_nil,
    not_and, Bool.not_eq_true, Bool.not_eq_false]
  tauto

theorem mem_nbrs_iff (cols rows : Nat) (cells : List Cell) (cell j : Nat) (d : Int) :
    (j, d) ∈ get_neighbors cols rows cells cell ↔
      ((cellAt cells cell).north = false ∧ 0 < cell / cols ∧
        j = cell - cols ∧ d = UP) ∨
      ((cellAt cells cell).south = false ∧ cell / cols < rows - 1 ∧
        j = cell + cols ∧ d = DOWN) ∨
      ((cellAt cells cell).west = false ∧ 0 < cell % cols ∧
        j = cell - 1 ∧ d = LEFT) ∨
      ((cellAt cells cell).east = false ∧ cell % cols < cols - 1 ∧
        j = cell + 1 ∧ d = RIGHT) := by
  simp only [get_neighbors, List.mem_append, mem_ite_singleton,
    Prod.mk.injEq, Bool.not_eq_true]
  tauto

/-- `get_neighbors` depends only on the walls of its argument cell. -/
theorem get_neighbors_congr (cols rows : Nat) (cells cells' : List Cell) (cell : Nat)
    (h : cellAt cells' cell = cellAt cells cell) :
    get_neighbors cols rows cells' cell = get_neighbors cols rows cells cell := by
  simp only [get_neighbors, h]

/-! ## The open-wall adjacency and the maze graph -/

/-- Directed open-wall adjacency exactly as the pathfinder's `get_neighbors`
sees it: `j` is listed as an accessible neighbour of `i`. -/
def mazeAdj (cols rows : Nat) (cells : List Cell) (i j : Nat) : Prop :=
  j ∈ (get_neighbors cols rows cells i).map Prod.fst

instance (cols rows : Nat) (cells : List Cell) (i j : Nat) :
    Decidable (mazeAdj cols rows cells i j) := by
  unfold mazeAdj
  infer_instance

theorem mazeAdj_iff (cols rows : Nat) (cells : List Cell) (i j : Nat) :
    mazeAdj cols rows cells i j ↔
      ((cellAt cells i).north = false ∧ 0 < i / cols ∧ j = i - cols) ∨
      ((cellAt cells i).south = false ∧ i / cols < rows - 1 ∧ j = i + cols) ∨
      ((cellAt cells i).west = false ∧ 0 < i % cols ∧ j = i - 1) ∨
      ((cellAt cells i).east = false ∧ i % cols < cols - 1 ∧ j = i + 1) := by
  unfold mazeAdj
  rw [List.mem_map]
  constructor
  · rintro ⟨⟨j', d⟩, hm, rfl⟩
    rw [mem_nbrs_iff] at hm
    tauto
  · intro h
    rcases h with ⟨h1, h2, rfl⟩ | ⟨h1, h2, rfl⟩ | ⟨h1, h2, rfl⟩ | ⟨h1, h2, rfl⟩
    · exact ⟨(_, UP), by rw [mem_nbrs_iff]; tauto, rfl⟩
    · exact ⟨(_, DOWN), by rw [mem_nbrs_iff]; tauto, rfl⟩
    · exact ⟨(_, LEFT), by rw [mem_nbrs_iff]; tauto, rfl⟩
    · exact ⟨(_, RIGHT), by rw [mem_nbrs_iff]; tauto, rfl⟩

theorem openStep_iff_mazeAdj (cols rows : Nat) (cells : List Cell) (i j : Nat) :
    openStep cols rows cells i j ↔ mazeAdj cols rows cells i j := by
  unfold openStep mazeAdj
  rw [List.mem_map]
  constructor
  · rintro ⟨d, hd⟩
    exact ⟨(j, d), hd, rfl⟩
  · rintro ⟨⟨j', d⟩, hm, rfl⟩
    exact ⟨d, hm⟩

/-- The target of one open-wall step from an in-range cell is in range. -/
theorem mazeAdj_lt (cols rows : Nat) (cells : List Cell) (i j : Nat)
    (hc : 0 < cols) (hi : i < rows * cols) (h : mazeAdj cols rows cells i j) :
    j < rows * cols := by
  rw [mazeAdj_iff] at h
  rcases h with ⟨_, h2, rfl⟩ | ⟨_, h2, rfl⟩ | ⟨_, h2, rfl⟩ | ⟨_, h2, rfl⟩
  · omega
  · have h3 : i / cols + 1 < rows := by
      generalize i / cols = q at h2 ⊢
      omega
    exact idx_lt_of_row_lt cols rows (i + cols) hc
      (by rw [(down_arith cols i hc).1]; exact h3)
  · omega
  · have h3 : i % cols + 1 < cols := by
      generalize i % cols = q at h2 ⊢
      omega
    have h4 := (right_arith cols i h3).1
    have h5 := row_lt cols rows i hc hi
    exact idx_lt_of_row_lt cols rows (i + 1) hc (by rw [h4]; exact h5)

/-- An open-wall step never returns to its source cell. -/
theorem mazeAdj_ne (cols rows : Nat) (cells : List Cell) (i j : Nat)
    (hc : 0 < cols) (h : mazeAdj cols rows cells i j) : j ≠ i := by
  rw [mazeAdj_iff] at h
  rcases h with ⟨_, h2, rfl⟩ | ⟨_, h2, rfl⟩ | ⟨_, h2, rfl⟩ | ⟨_, h2, rfl⟩
  · have := (up_arith cols i hc h2).1
    omega
  · omega
  · have hle := Nat.mod_le i cols
    generalize i % cols = q at h2 hle
    omega
  · omega

/-- The open-wall graph of a maze state (claim C2): cells are nodes, an open
boundary (in either cell's direction) is an undirected edge. -/
def mazeGraph (cols rows : Nat) (cells : List Cell) : SimpleGraph (Fin (rows * cols)) where
  Adj a b := mazeAdj cols rows cells a.val b.val ∨ mazeAdj cols rows cells b.val a.val
  symm := by
    intro a b h
    tauto
  loopless := by
    intro a h
    have hn : 0 < rows * cols := Nat.lt_of_le_of_lt (Nat.zero_le _) a.isLt
    have hc : 0 < cols := by
      rcases Nat.eq_zero_or_pos cols with h0 | h0
      · rw [h0, Nat.mul_zero] at hn
        exact absurd hn (Nat.lt_irrefl 0)
      · exact h0
    rcases h with h | h <;> exact mazeAdj_ne cols rows cells _ _ hc h rfl

instance mazeGraphAdjDecidable (cols rows : Nat) (cells : List Cell) :
    DecidableRel (mazeGraph cols rows cells).Adj := fun a b =>
  inferInstanceAs (Decidable (_ ∨ _))

theorem mazeGraph_adj (cols rows : Nat) (cells : List Cell)
    (a b : Fin (rows * cols)) :
    (mazeGraph cols rows cells).Adj a b ↔
      mazeAdj cols rows cells a.val b.val ∨ mazeAdj cols rows cells b.val a.val :=
  Iff.rfl

/-! ## Counting visited cells -/

theorem countP_set_preserve {α : Type} (p : α → Bool) (l : List α) (i : Nat) (v : α)
    (h : i < l.length) (hp : p v = p l[i]) :
    (l.set i v).countP p = l.countP p := by
  induction l generalizing i with
  | nil => simp at h
  | cons a tl ih =>
    cases i with
    | zero =>
      simp only [List.set_cons_zero, List.countP_cons]
      simp only [List.getElem_cons_zero] at hp
      rw [hp]
    | succ i =>
      simp only [List.set_cons_succ, List.countP_cons]
      simp only [List.length_cons, Nat.succ_lt_succ_iff] at h
      simp only [List.getElem_cons_succ] at hp
      rw [ih i h hp]

theorem countP_set_incr {α : Type} (p : α → Bool) (l : List α) (i : Nat) (v : α)
    (h : i < l.length) (h1 : p l[i] = false) (h2 : p v = true) :
    (l.set i v).countP p = l.countP p + 1 := by
  induction l generalizing i with
  | nil => simp at h
  | cons a tl ih =>
    cases i with
    | zero =>
      simp only [List.set_cons_zero, List.countP_cons]
      simp only [List.getElem_cons_zero] at h1
      rw [h1, h2]
      simp
    | succ i =>
      simp only [List.set_cons_succ, List.countP_cons]
      simp only [List.length_cons, Nat.succ_lt_succ_iff] at h
      simp only [List.getElem_cons_succ] at h1
      rw [ih i h h1]
      omega

theorem cellAt_getElem (cells : List Cell) (i : Nat) (h : i < cells.length) :
    cellAt cells i = cells[i] :=
  List.getD_eq_getElem cells default h

theorem countVisited_le (cells : List Cell) : countVisited cells ≤ cells.length :=
  List.countP_le_length _

/-- If every cell counts as visited, each individual cell is visited. -/
theorem all_visited_of_count (cells : List Cell)
    (h : countVisited cells = cells.length) :
    ∀ i < cells.length, (cellAt cells i).visited = true := by
  intro i hi
  rw [cellAt_getElem cells i hi]
  have h' := List.countP_eq_length.mp h
  exact h' _ (List.getElem_mem hi)

/-! ## Reaching every grid cell from cell 0 by DOWN/RIGHT closure -/

theorem grid_closure (cols rows : Nat) (hc : 0 < cols) (P : Nat → Prop) (h0 : P 0)
    (hstep : ∀ i, i < rows * cols → P i →
      (i / cols < rows - 1 → P (i + cols)) ∧ (i % cols < cols - 1 → P (i + 1))) :
    ∀ i, i < rows * cols → P i := by
  intro i
  induction i using Nat.strong_induction_on with
  | _ i ih =>
    intro hi
    rcases Nat.eq_zero_or_pos i with rfl | hipos
    · exact h0
    rcases Nat.eq_zero_or_pos (i % cols) with hcol | hcol
    · have hrow : 0 < i / cols := by
        rcases Nat.eq_zero_or_pos (i / cols) with h0' | h0'
        · exfalso
          have hdm := Nat.div_add_mod i cols
          rw [h0', hcol] at hdm
          omega
        · exact h0'
      obtain ⟨hle, hadd, hdiv, hmod⟩ := up_arith cols i hc hrow
      have hjlt : i - cols < rows * cols := by omega
      have hPj : P (i - cols) := ih (i - cols) (by omega) hjlt
      have hrows : i / cols < rows := row_lt cols rows i hc hi
      have hs := (hstep (i - cols) hjlt hPj).1
      rw [hadd] at hs
      refine hs ?_
      generalize (i - cols) / cols = q1 at hdiv
      generalize i / cols = q2 at hdiv hrows hrow
      omega
    · obtain ⟨hdiv, hmod⟩ := left_arith cols i hc hcol
      have hmlt : i % cols < cols := Nat.mod_lt _ hc
      have hPj : P (i - 1) := ih (i - 1) (by omega) (by omega)
      have hs := (hstep (i - 1) (by omega) hPj).2
      have h2 : (i - 1) % cols < cols - 1 := by
        generalize (i - 1) % cols = q1 at hmod
        generalize i % cols = q2 at hmod hcol hmlt
        omega
      have h3 := hs h2
      have he : i - 1 + 1 = i := by omega
      rw [he] at h3
      exact h3

/-! ## Monotonicity of travel notions under wall opening / visit marking -/

/-- `cells'` has at least the visited marks of `cells`. -/
def VisitedMono (cells cells' : List Cell) : Prop :=
  ∀ i, (cellAt cells i).visited = true → (cellAt cells' i).visited = true

/-- `cells'` has at least the open walls of `cells`. -/
def WallsMono (cells cells' : List Cell) : Prop :=
  ∀ i, ((cellAt cells i).north = false → (cellAt cells' i).north = false) ∧
    ((cellAt cells i).south = false → (cellAt cells' i).south = false) ∧
    ((cellAt cells i).west = false → (cellAt cells' i).west = false) ∧
    ((cellAt cells i).east = false → (cellAt cells' i).east = false)

theorem unvis_nil_mono (cols rows : Nat) (cells cells' : List Cell) (cell : Nat)
    (hm : VisitedMono cells cells')
    (h : get_unvisited_neighbors cols rows cells cell = []) :
    get_unvisited_neighbors cols rows cells' cell = [] := by
  rw [unvis_nil_iff] at h ⊢
  exact ⟨fun hb => hm _ (h.1 hb), fun hb => hm _ (h.2.1 hb),
    fun hb => hm _ (h.2.2.1 hb), fun hb => hm _ (h.2.2.2 hb)⟩

theorem mazeAdj_mono (cols rows : Nat) (cells cells' : List Cell)
    (hm : WallsMono cells cells') (i j : Nat)
    (h : mazeAdj cols rows cells i j) : mazeAdj cols rows cells' i j := by
  rw [mazeAdj_iff] at h ⊢
  rcases h with ⟨h1, h2, h3⟩ | ⟨h1, h2, h3⟩ | ⟨h1, h2, h3⟩ | ⟨h1, h2, h3⟩
  · exact Or.inl ⟨(hm i).1 h1, h2, h3⟩
  · exact Or.inr (Or.inl ⟨(hm i).2.1 h1, h2, h3⟩)
  · exact Or.inr (Or.inr (Or.inl ⟨(hm i).2.2.1 h1, h2, h3⟩))
  · exact Or.inr (Or.inr (Or.inr ⟨(hm i).2.2.2 h1, h2, h3⟩))

theorem mazeGraph_mono (cols rows : Nat) (cells cells' : List Cell)
    (hm : WallsMono cells cells') :
    mazeGraph cols rows cells ≤ mazeGraph cols rows cells' := by
  intro a b hab
  rcases hab with h | h
  · exact Or.inl (mazeAdj_mono cols rows cells cells' hm _ _ h)
  · exact Or.inr (mazeAdj_mono cols rows cells cells' hm _ _ h)

/-! ## Pointwise description of one generator step -/

theorem remove_adj_walls_UP (cells : List Cell) (cur next : Nat) :
    remove_adj_walls cells cur next UP =
      modifyCell (modifyCell cells cur (fun c => { c with north := false }))
        next (fun c => { c with south := false }) := by
  rw [remove_adj_walls, if_pos rfl]

theorem remove_adj_walls_DOWN (cells : List Cell) (cur next : Nat) :
    remove_adj_walls cells cur next DOWN =
      modifyCell (modifyCell cells cur (fun c => { c with south := false }))
        next (fun c => { c with north := false }) := by
  rw [remove_adj_walls, if_neg (by decide), if_pos rfl]

theorem remove_adj_walls_LEFT (cells : List Cell) (cur next : Nat) :
    remove_adj_walls cells cur next LEFT =
      modifyCell (modifyCell cells cur (fun c => { c with west := false }))
        next (fun c => { c with east := false }) := by
  rw [remove_adj_walls, if_neg (by decide), if_neg (by decide), if_pos rfl]

theorem remove_adj_walls_RIGHT (cells : List Cell) (cur next : Nat) :
    remove_adj_walls cells cur next RIGHT =
      modifyCell (modifyCell cells cur (fun c => { c with east := false }))
        next (fun c => { c with west := false }) := by
  rw [remove_adj_walls, if_neg (by decide), if_neg (by decide), if_neg (by decide),
    if_pos rfl]

/-- Reading any position after the wall-opening/visit-marking compound update
of one generator step. -/
theorem cellAt_step (cells : List Cell) (cur next : Nat) (f g : Cell → Cell)
    (hcur : cur < cells.length) (hnext : next < cells.length) (hne : next ≠ cur)
    (j : Nat) :
    cellAt (modifyCell (modifyCell (modifyCell cells cur f) next g) next
        (fun c => { c with visited := true })) j =
      if j = next then { g (cellAt cells next) with visited := true }
      else if j = cur then f (cellAt cells cur)
      else cellAt cells j := by
  by_cases hjn : j = next
  · subst hjn
    rw [if_pos rfl]
    rw [cellAt_modifyCell_self _ _ _
      (by rw [length_modifyCell, length_modifyCell]; exact hnext)]
    rw [cellAt_modifyCell_self _ _ _ (by rw [length_modifyCell]; exact hnext)]
    rw [cellAt_modifyCell_ne _ _ _ _ (fun hx => hne hx.symm)]
  · rw [if_neg hjn]
    rw [cellAt_modifyCell_ne _ _ _ _ (fun hx => hjn hx.symm)]
    rw [cellAt_modifyCell_ne _ _ _ _ (fun hx => hjn hx.symm)]
    by_cases hjc : j = cur
    · subst hjc
      rw [if_pos rfl, cellAt_modifyCell_self _ _ _ hcur]
    · rw [if_neg hjc, cellAt_modifyCell_ne _ _ _ _ (fun hx => hjc hx.symm)]

/-- Flag-level description of a vertical wall opening: the step for direction
UP (`cur = a + cols`, `next = a`) or DOWN (`cur = a`, `next = a + cols`)
clears exactly `south a` and `north (a + cols)` and marks `next` visited. -/
theorem vert_flags (cols : Nat) (cells : List Cell) (a cur next : Nat) (d : Int)
    (hc : 0 < cols) (ha : a + cols < cells.length)
    (hcase : (d = UP ∧ cur = a + cols ∧ next = a) ∨
      (d = DOWN ∧ cur = a ∧ next = a + cols)) :
    (∀ j, (cellAt (modifyCell (remove_adj_walls cells cur next d) next
        (fun c => { c with visited := true })) j).north =
        if j = a + cols then false else (cellAt cells j).north) ∧
    (∀ j, (cellAt (modifyCell (remove_adj_walls cells cur next d) next
        (fun c => { c with visited := true })) j).south =
        if j = a then false else (cellAt cells j).south) ∧
    (∀ j, (cellAt (modifyCell (remove_adj_walls cells cur next d) next
        (fun c => { c with visited := true })) j).east = (cellAt cells j).east) ∧
    (∀ j, (cellAt (modifyCell (remove_adj_walls cells cur next d) next
        (fun c => { c with visited := true })) j).west = (cellAt cells j).west) ∧
    (∀ j, (cellAt (modifyCell (remove_adj_walls cells cur next d) next
        (fun c => { c with visited := true })) j).visited =
        if j = next then true else (cellAt cells j).visited) := by
  have hane : a ≠ a + cols := by omega
  have hc0 : cols ≠ 0 := by omega
  rcases hcase with ⟨hd, hcur, hnext⟩ | ⟨hd, hcur, hnext⟩
  · rw [hd, hcur, hnext, remove_adj_walls_UP]
    have hstep := cellAt_step cells (a + cols) a
      (fun c => { c with north := false }) (fun c => { c with south := false })
      ha (by omega) hane
    refine ⟨fun j => ?_, fun j => ?_, fun j => ?_, fun j => ?_, fun j => ?_⟩ <;>
      rw [hstep j] <;>
      by_cases h1 : j = a <;> by_cases h2 : j = a + cols <;>
      first | omega | simp [h1, h2, hc0] | rfl
  · rw [hd, hcur, hnext, remove_adj_walls_DOWN]
    have hstep := cellAt_step cells a (a + cols)
      (fun c => { c with south := false }) (fun c => { c with north := false })
      (by omega) ha (fun hx => hane hx.symm)
    refine ⟨fun j => ?_, fun j => ?_, fun j => ?_, fun j => ?_, fun j => ?_⟩ <;>
      rw [hstep j] <;>
      by_cases h1 : j = a <;> by_cases h2 : j = a + cols <;>
      first | omega | simp [h1, h2, hc0] | rfl

/-- Flag-level description of a horizontal wall opening: the step for
direction LEFT (`cur = a + 1`, `next = a`) or RIGHT (`cur = a`,
`next = a + 1`) clears exactly `east a` and `west (a + 1)` and marks `next`
visited. -/
theorem horiz_flags (cells : List Cell) (a cur next : Nat) (d : Int)
    (ha : a + 1 < cells.length)
    (hcase : (d = LEFT ∧ cur = a + 1 ∧ next = a) ∨
      (d = RIGHT ∧ cur = a ∧ next = a + 1)) :
    (∀ j, (cellAt (modifyCell (remove_adj_walls cells cur next d) next
        (fun c => { c with visited := true })) j).north = (cellAt cells j).north) ∧
    (∀ j, (cellAt (modifyCell (remove_adj_walls cells cur next d) next
        (fun c => { c with visited := true })) j).south = (cellAt cells j).south) ∧
    (∀ j, (cellAt (modifyCell (remove_adj_walls cells cur next d) next
        (fun c => { c with visited := true })) j).east =
        if j = a then false else (cellAt cells j).east) ∧
    (∀ j, (cellAt (modifyCell (remove_adj_walls cells cur next d) next
        (fun c => { c with visited := true })) j).west =
        if j = a + 1 then false else (cellAt cells j).west) ∧
    (∀ j, (cellAt (modifyCell (remove_adj_walls cells cur next d) next
        (fun c => { c with visited := true })) j).visited =
        if j = next then true else (cellAt cells j).visited) := by
  have hane : a ≠ a + 1 := by omega
  rcases hcase with ⟨hd, hcur, hnext⟩ | ⟨hd, hcur, hnext⟩
  · rw [hd, hcur, hnext, remove_adj_walls_LEFT]
    have hstep := cellAt_step cells (a + 1) a
      (fun c => { c with west := false }) (fun c => { c with east := false })
      ha (by omega) hane
    refine ⟨fun j => ?_, fun j => ?_, fun j => ?_, fun j => ?_, fun j => ?_⟩ <;>
      rw [hstep j] <;>
      by_cases h1 : j = a <;> by_cases h2 : j = a + 1 <;>
      first | omega | simp [h1, h2] | rfl
  · rw [hd, hcur, hnext, remove_adj_walls_RIGHT]
    have hstep := cellAt_step cells a (a + 1)
      (fun c => { c with east := false }) (fun c => { c with west := false })
      (by omega) ha (fun hx => hane hx.symm)
    refine ⟨fun j => ?_, fun j => ?_, fun j => ?_, fun j => ?_, fun j => ?_⟩ <;>
      rw [hstep j] <;>
      by_cases h1 : j = a <;> by_cases h2 : j = a + 1 <;>
      first | omega | simp [h1, h2] | rfl

/-! ## How one wall opening changes the open-wall adjacency -/

theorem mazeAdj_insert_vert (cols rows : Nat) (cells cells2 : List Cell) (a : Nat)
    (hc : 0 < cols) (hrow : a / cols < rows - 1)
    (hN : ∀ j, (cellAt cells2 j).north =
      if j = a + cols then false else (cellAt cells j).north)
    (hS : ∀ j, (cellAt cells2 j).south =
      if j = a then false else (cellAt cells j).south)
    (hE : ∀ j, (cellAt cells2 j).east = (cellAt cells j).east)
    (hW : ∀ j, (cellAt cells2 j).west = (cellAt cells j).west) :
    ∀ i j, mazeAdj cols rows cells2 i j ↔
      (mazeAdj cols rows cells i j ∨ (i = a ∧ j = a + cols) ∨ (i = a + cols ∧ j = a)) := by
  have hc0 : cols ≠ 0 := by omega
  have hdn := (down_arith cols a hc).1
  have hup : 0 < (a + cols) / cols := by
    rw [hdn]
    exact Nat.succ_pos _
  have hsub : a + cols - cols = a := by omega
  intro i j
  rw [mazeAdj_iff, mazeAdj_iff, hN i, hS i, hE i, hW i]
  by_cases hia : i = a <;> by_cases hib : i = a + cols
  · omega
  · subst hia
    simp only [if_pos rfl, if_neg hib, eq_self_iff_true, true_and]
    simp [hsub, hup, hrow, hc0]
    tauto
  · subst hib
    simp only [if_pos rfl, if_neg (show ¬ a + cols = a by omega), eq_self_iff_true,
      true_and]
    simp [hsub, hup, hrow, hc0]
    tauto
  · simp only [if_neg hia, if_neg hib]
    simp [hia, hib]

set_option maxHeartbeats 1000000 in
theorem mazeAdj_insert_horiz (cols rows : Nat) (cells cells2 : List Cell) (a : Nat)
    (hc : 0 < cols) (hcol : a % cols < cols - 1)
    (hN : ∀ j, (cellAt cells2 j).north = (cellAt cells j).north)
    (hS : ∀ j, (cellAt cells2 j).south = (cellAt cells j).south)
    (hE : ∀ j, (cellAt cells2 j).east =
      if j = a then false else (cellAt cells j).east)
    (hW : ∀ j, (cellAt cells2 j).west =
      if j = a + 1 then false else (cellAt cells j).west) :
    ∀ i j, mazeAdj cols rows cells2 i j ↔
      (mazeAdj cols rows cells i j ∨ (i = a ∧ j = a + 1) ∨ (i = a + 1 ∧ j = a)) := by
  have hc1 : a % cols + 1 < cols := by
    generalize a % cols = q at hcol
    omega
  have hra := (right_arith cols a hc1).2
  have hup : 0 < (a + 1) % cols := by
    rw [hra]
    exact Nat.succ_pos _
  have hsub : a + 1 - 1 = a := by omega
  intro i j
  rw [mazeAdj_iff, mazeAdj_iff, hN i, hS i, hE i, hW i]
  by_cases hia : i = a <;> by_cases hib : i = a + 1
  · omega
  · subst hia
    simp only [if_pos rfl, if_neg hib, eq_self_iff_true, true_and]
    simp [hsub, hup, hcol]
    tauto
  · subst hib
    simp only [if_pos rfl, if_neg (show ¬ a + 1 = a by omega), eq_self_iff_true,
      true_and]
    simp [hsub, hup, hcol]
    tauto
  · simp only [if_neg hia, if_neg hib]
    simp [hia, hib]

/-! ## A fully walled cell is isolated -/

theorem no_adj_of_closed (cols rows : Nat) (cells : List Cell) (next j : Nat)
    (hclosed : (cellAt cells next).north = true ∧ (cellAt cells next).south = true ∧
      (cellAt cells next).east = true ∧ (cellAt cells next).west = true) :
    ¬ mazeAdj cols rows cells next j := by
  rw [mazeAdj_iff]
  rintro (⟨h1, _, _⟩ | ⟨h1, _, _⟩ | ⟨h1, _, _⟩ | ⟨h1, _, _⟩) <;> simp_all

theorem no_adj_into_closed (cols rows : Nat) (cells : List Cell)
    (hc : 0 < cols) (hlen : cells.length = rows * cols)
    (hsym : WallSym cols rows cells) (next j : Nat)
    (hnext : next < rows * cols) (hj : j < rows * cols)
    (hclosed : (cellAt cells next).north = true ∧ (cellAt cells next).south = true ∧
      (cellAt cells next).east = true ∧ (cellAt cells next).west = true) :
    ¬ mazeAdj cols rows cells j next := by
  rw [mazeAdj_iff]
  rintro (⟨h1, h2, h3⟩ | ⟨h1, h2, h3⟩ | ⟨h1, h2, h3⟩ | ⟨h1, h2, h3⟩)
  · obtain ⟨hle, hadd, hdiv, hmod⟩ := up_arith cols j hc h2
    have hjrow : j / cols < rows := row_lt cols rows j hc hj
    have hcond : next / cols + 1 < rows := by
      rw [h3, hdiv]
      exact hjrow
    have hw := (hsym next hnext).1 hcond
    rw [h3] at hclosed
    rw [h3, hadd] at hw
    rw [hclosed.2.1, h1] at hw
    simp at hw
  · have hcond : j / cols + 1 < rows := by
      generalize j / cols = q at h2
      omega
    have hw := (hsym j hj).1 hcond
    rw [← h3, hclosed.1, h1] at hw
    simp at hw
  · obtain ⟨hdiv, hmod⟩ := left_arith cols j hc h2
    have hjm : j % cols < cols := Nat.mod_lt _ hc
    have hcond : next % cols + 1 < cols := by
      rw [h3, hmod]
      exact hjm
    have hw := (hsym next hnext).2 hcond
    have hj0 : 0 < j := by
      rcases Nat.eq_zero_or_pos j with rfl | hp
      · simp at h2
      · exact hp
    have hadd : next + 1 = j := by
      rw [h3]
      omega
    rw [h3] at hclosed
    rw [h3] at hadd
    rw [h3, hadd] at hw
    rw [hclosed.2.2.1, h1] at hw
    simp at hw
  · have hcond : j % cols + 1 < cols := by
      generalize j % cols = q at h2
      omega
    have hw := (hsym j hj).2 hcond
    rw [← h3, hclosed.2.2.2, h1] at hw
    simp at hw

/-! ## The generator loop invariant -/

theorem pos_pos_of_n_pos (cols rows : Nat) (h : 0 < rows * cols) :
    0 < cols ∧ 0 < rows := by
  constructor
  · rcases Nat.eq_zero_or_pos cols with rfl | h1
    · rw [Nat.mul_zero] at h
      exact absurd h (Nat.lt_irrefl 0)
    · exact h1
  · rcases Nat.eq_zero_or_pos rows with rfl | h1
    · rw [Nat.zero_mul] at h
      exact absurd h (Nat.lt_irrefl 0)
    · exact h1

/-- The invariant carried through every iteration of the `back_tracker` loop.
`k` is the number of loop iterations performed so far (the index into the
randomness oracle). -/
structure BTInv (cols rows : Nat) (s : BTState) (k : Nat) : Prop where
  hlen : s.cells.length = rows * cols
  hvc : s.vcount = countVisited s.cells
  hcur_lt : s.current < rows * cols
  hcur_vis : (cellAt s.cells s.current).visited = true
  hvis0 : (cellAt s.cells 0).visited = true
  hstack : ∀ i ∈ s.stack, i < rows * cols ∧ (cellAt s.cells i).visited = true
  hfront : ∀ i, i < rows * cols → (cellAt s.cells i).visited = true →
    i ∉ s.stack → i ≠ s.current →
    get_unvisited_neighbors cols rows s.cells i = []
  hunvis : ∀ i, i < rows * cols → (cellAt s.cells i).visited = false →
    (cellAt s.cells i).north = true ∧ (cellAt s.cells i).south = true ∧
    (cellAt s.cells i).east = true ∧ (cellAt s.cells i).west = true
  hsym : WallSym cols rows s.cells
  hbound : BoundaryClosed cols rows s.cells
  hreach : ∀ i, (hi : i < rows * cols) → (cellAt s.cells i).visited = true →
    (mazeGraph cols rows s.cells).Reachable
      ⟨0, Nat.lt_of_le_of_lt (Nat.zero_le i) hi⟩ ⟨i, hi⟩
  hpar : ∃ par rank : Nat → Nat,
    (∀ v, v < rows * cols → (cellAt s.cells v).visited = true → v ≠ 0 →
      par v < rows * cols ∧ (cellAt s.cells (par v)).visited = true ∧
      rank (par v) < rank v) ∧
    (∀ v, v < rows * cols → (cellAt s.cells v).visited = true → rank v ≤ k) ∧
    (∀ x, x < rows * cols → ∀ y, y < rows * cols →
      ((mazeAdj cols rows s.cells x y ∨ mazeAdj cols rows s.cells y x) ↔
        ((cellAt s.cells y).visited = true ∧ y ≠ 0 ∧ par y = x) ∨
        ((cellAt s.cells x).visited = true ∧ x ≠ 0 ∧ par x = y)))

/-- Two cell lists of equal length with pointwise equal visited flags have the
same visited count. -/
theorem countVisited_pointwise : ∀ (cells cells' : List Cell),
    cells'.length = cells.length →
    (∀ i, i < cells.length →
      (cellAt cells' i).visited = (cellAt cells i).visited) →
    countVisited cells' = countVisited cells := by
  intro cells
  induction cells with
  | nil =>
    intro cells' hlen _
    rw [List.length_nil, List.length_eq_zero] at hlen
    rw [hlen]
  | cons c tl ih =>
    intro cells' hlen hpt
    cases cells' with
    | nil => simp at hlen
    | cons c' tl' =>
      have h0 := hpt 0 (by simp)
      have htl : ∀ i, i < tl.length →
          (cellAt tl' i).visited = (cellAt tl i).visited := by
        intro i hi
        exact hpt (i + 1) (by simp; omega)
      have hc : c'.visited = c.visited := h0
      unfold countVisited
      rw [List.countP_cons, List.countP_cons, hc]
      have := ih tl' (by simpa using hlen) htl
      unfold countVisited at this
      rw [this]

theorem countVisited_modify_visit (cells : List Cell) (i : Nat)
    (hi : i < cells.length) (hv : (cellAt cells i).visited = false) :
    countVisited (modifyCell cells i (fun c => { c with visited := true })) =
      countVisited cells + 1 := by
  unfold countVisited modifyCell
  refine countP_set_incr _ cells i _ hi ?_ rfl
  rw [← cellAt_getElem cells i hi]
  exact hv

/-- Saturated frontier plus an empty stack forces every cell to be visited. -/
theorem bt_no_stuck (cols rows k : Nat) (s : BTState) (inv : BTInv cols rows s k)
    (hvcn : s.vcount < rows * cols)
    (hnb : get_unvisited_neighbors cols rows s.cells s.current = [])
    (hstk : s.stack = []) : False := by
  have hc : 0 < cols :=
    (pos_pos_of_n_pos cols rows (Nat.lt_of_le_of_lt (Nat.zero_le _) inv.hcur_lt)).1
  have hsat : ∀ i, i < rows * cols → (cellAt s.cells i).visited = true →
      get_unvisited_neighbors cols rows s.cells i = [] := by
    intro i hi hv
    by_cases hcur : i = s.current
    · rw [hcur]
      exact hnb
    · exact inv.hfront i hi hv (by rw [hstk]; exact List.not_mem_nil i) hcur
  have hall : ∀ i, i < rows * cols → (cellAt s.cells i).visited = true := by
    refine grid_closure cols rows hc _ inv.hvis0 ?_
    intro i hi hv
    have hs := (unvis_nil_iff cols rows s.cells i).mp (hsat i hi hv)
    exact ⟨hs.2.1, hs.2.2.2⟩
  have hcnt : countVisited s.cells = rows * cols := by
    have : countVisited s.cells = s.cells.length := by
      apply List.countP_eq_length.mpr
      intro c hcmem
      obtain ⟨i, hi, rfl⟩ := List.getElem_of_mem hcmem
      have := hall i (by rw [← inv.hlen]; exact hi)
      rw [cellAt_getElem s.cells i hi] at this
      exact this
    rw [this, inv.hlen]
  have := inv.hvc
  omega

/-- Invariant preservation across the backtrack (pop) branch. -/
theorem btinv_pop (cols rows k : Nat) (s : BTState) (inv : BTInv cols rows s k)
    (c : Nat) (rest : List Nat) (hstk : s.stack = c :: rest)
    (hnb : get_unvisited_neighbors cols rows s.cells s.current = []) :
    BTInv cols rows ⟨s.cells, rest, c, s.vcount⟩ (k + 1) := by
  have hcmem : c ∈ s.stack := by rw [hstk]; exact List.mem_cons_self c rest
  obtain ⟨par, rank, hp1, hp2, hp3⟩ := inv.hpar
  refine ⟨inv.hlen, inv.hvc, (inv.hstack c hcmem).1, (inv.hstack c hcmem).2,
    inv.hvis0, ?_, ?_, inv.hunvis, inv.hsym, inv.hbound, inv.hreach,
    ⟨par, rank, hp1, fun v hv hvis => Nat.le_succ_of_le (hp2 v hv hvis), hp3⟩⟩
  · intro i hi
    exact (inv.hstack i (by rw [hstk]; exact List.mem_cons_of_mem c hi))
  · intro i hi hv hmem hne
    by_cases hcur : i = s.current
    · rw [hcur]
      exact hnb
    · refine inv.hfront i hi hv ?_ hcur
      rw [hstk]
      intro hmem2
      rcases List.mem_cons.mp hmem2 with h | h
      · exact hne h
      · exact hmem h

/-- Invariant preservation for a visit step that opens a vertical wall pair
`south a` / `north (a + cols)`; `cells2` is the updated cell list described
pointwise by the flag hypotheses. -/
theorem btinv_visit_vert (cols rows k : Nat) (s : BTState) (inv : BTInv cols rows s k)
    (a next : Nat) (cells2 : List Cell)
    (hb : a + cols < rows * cols) (hrow : a / cols < rows - 1)
    (hnv : (cellAt s.cells next).visited = false)
    (hpair : (s.current = a + cols ∧ next = a) ∨ (s.current = a ∧ next = a + cols))
    (hlen2 : cells2.length = s.cells.length)
    (hN : ∀ j, (cellAt cells2 j).north =
      if j = a + cols then false else (cellAt s.cells j).north)
    (hS : ∀ j, (cellAt cells2 j).south =
      if j = a then false else (cellAt s.cells j).south)
    (hE : ∀ j, (cellAt cells2 j).east = (cellAt s.cells j).east)
    (hW : ∀ j, (cellAt cells2 j).west = (cellAt s.cells j).west)
    (hV : ∀ j, (cellAt cells2 j).visited =
      if j = next then true else (cellAt s.cells j).visited) :
    BTInv cols rows ⟨cells2, s.current :: s.stack, next, s.vcount + 1⟩ (k + 1) := by
  have hn : 0 < rows * cols := Nat.lt_of_le_of_lt (Nat.zero_le _) hb
  obtain ⟨hc, hr⟩ := pos_pos_of_n_pos cols rows hn
  have hcune : s.current ≠ next := by rcases hpair with ⟨h1, h2⟩ | ⟨h1, h2⟩ <;> omega
  have hnext_lt : next < rows * cols := by rcases hpair with ⟨h1, h2⟩ | ⟨h1, h2⟩ <;> omega
  have hcur_lt := inv.hcur_lt
  have hn0 : next ≠ 0 := by
    intro h
    rw [h, inv.hvis0] at hnv
    exact Bool.noConfusion hnv
  have hadj := mazeAdj_insert_vert cols rows s.cells cells2 a hc hrow hN hS hE hW
  have hmono : WallsMono s.cells cells2 := by
    intro i
    refine ⟨fun hf => ?_, fun hf => ?_, fun hf => ?_, fun hf => ?_⟩
    · rw [hN i]
      split
      · rfl
      · exact hf
    · rw [hS i]
      split
      · rfl
      · exact hf
    · rw [hW i]
      exact hf
    · rw [hE i]
      exact hf
  have hvmono : VisitedMono s.cells cells2 := by
    intro i hvi
    rw [hV i]
    split
    · rfl
    · exact hvi
  have hGle := mazeGraph_mono cols rows s.cells cells2 hmono
  have hAdjNew : (mazeGraph cols rows cells2).Adj ⟨s.current, hcur_lt⟩ ⟨next, hnext_lt⟩ := by
    rw [mazeGraph_adj]
    left
    rw [hadj]
    right
    rcases hpair with ⟨h1, h2⟩ | ⟨h1, h2⟩
    · right
      exact ⟨h1, h2⟩
    · left
      exact ⟨h1, h2⟩
  obtain ⟨par, rank, hp1, hp2, hp3⟩ := inv.hpar
  refine ⟨?_, ?_, hnext_lt, ?_, ?_, ?_, ?_, ?_, ?_, ?_, ?_, ?_⟩
  · rw [hlen2, inv.hlen]
  · have he1 : countVisited cells2 =
        countVisited (modifyCell s.cells next (fun c => { c with visited := true })) := by
      apply countVisited_pointwise
      · rw [length_modifyCell, hlen2]
      · intro i hilen
        rw [hV i]
        by_cases hin : i = next
        · rw [hin, cellAt_modifyCell_self _ _ _ (by rw [inv.hlen]; exact hnext_lt),
            if_pos rfl]
        · rw [cellAt_modifyCell_ne _ _ _ _ (fun h => hin h.symm), if_neg hin]
    rw [he1, countVisited_modify_visit s.cells next (by rw [inv.hlen]; exact hnext_lt) hnv,
      ← inv.hvc]
  · rw [hV next, if_pos rfl]
  · rw [hV 0]
    split
    · rfl
    · exact inv.hvis0
  · intro i hi
    rcases List.mem_cons.mp hi with heq | hmem
    · subst heq
      refine ⟨hcur_lt, ?_⟩
      rw [hV s.current]
      split
      · rfl
      · exact inv.hcur_vis
    · obtain ⟨q1, q2⟩ := inv.hstack i hmem
      refine ⟨q1, ?_⟩
      rw [hV i]
      split
      · rfl
      · exact q2
  · intro i hi hvis hmem hnei
    have hvold : (cellAt s.cells i).visited = true := by
      rw [hV i, if_neg hnei] at hvis
      exact hvis
    have hns : i ∉ s.stack := fun h => hmem (List.mem_cons_of_mem _ h)
    have hnc : i ≠ s.current := fun h => hmem (h ▸ List.mem_cons_self _ _)
    exact unvis_nil_mono cols rows _ _ i hvmono (inv.hfront i hi hvold hns hnc)
  · intro i hi hvf
    have hine : i ≠ next := by
      intro h
      rw [h, hV next, if_pos rfl] at hvf
      exact Bool.noConfusion hvf
    rw [hV i, if_neg hine] at hvf
    obtain ⟨w1, w2, w3, w4⟩ := inv.hunvis i hi hvf
    have hia2 : i ≠ a + cols := by
      rcases hpair with ⟨h1, h2⟩ | ⟨h1, h2⟩
      · intro h
        have his : i = s.current := by omega
        rw [his, inv.hcur_vis] at hvf
        exact Bool.noConfusion hvf
      · intro h
        exact hine (by omega)
    have hia : i ≠ a := by
      rcases hpair with ⟨h1, h2⟩ | ⟨h1, h2⟩
      · intro h
        exact hine (by omega)
      · intro h
        have his : i = s.current := by omega
        rw [his, inv.hcur_vis] at hvf
        exact Bool.noConfusion hvf
    refine ⟨?_, ?_, ?_, ?_⟩
    · rw [hN i, if_neg hia2]
      exact w1
    · rw [hS i, if_neg hia]
      exact w2
    · rw [hE i]
      exact w3
    · rw [hW i]
      exact w4
  · intro i hi
    refine ⟨fun hcond => ?_, fun hcond => ?_⟩
    · rw [hS i, hN (i + cols)]
      by_cases hia : i = a
      · rw [if_pos hia, if_pos (by omega)]
      · rw [if_neg hia, if_neg (by omega : ¬ i + cols = a + cols)]
        exact (inv.hsym i hi).1 hcond
    · rw [hE i, hW (i + 1)]
      exact (inv.hsym i hi).2 hcond
  · intro i hi
    refine ⟨fun h0 => ?_, fun hrw => ?_, fun h0 => ?_, fun h0 => ?_⟩
    · rw [hN i]
      have hne2 : i ≠ a + cols := by
        intro hcontra
        rw [hcontra, (down_arith cols a hc).1] at h0
        generalize a / cols = q at h0
        omega
      rw [if_neg hne2]
      exact (inv.hbound i hi).1 h0
    · rw [hS i]
      have hne2 : i ≠ a := by
        intro hcontra
        rw [hcontra] at hrw
        generalize a / cols = q at hrw hrow
        omega
      rw [if_neg hne2]
      exact (inv.hbound i hi).2.1 hrw
    · rw [hW i]
      exact (inv.hbound i hi).2.2.1 h0
    · rw [hE i]
      exact (inv.hbound i hi).2.2.2 h0
  · intro i hi hvis
    by_cases hin : i = next
    · subst hin
      have hrc := (inv.hreach s.current hcur_lt inv.hcur_vis).mono hGle
      exact hrc.trans hAdjNew.reachable
    · rw [hV i, if_neg hin] at hvis
      exact (inv.hreach i hi hvis).mono hGle
  · refine ⟨Function.update par next s.current,
      Function.update rank next (k + 1), ?_, ?_, ?_⟩
    · intro v hvlt hvv hv0
      by_cases hvn : v = next
      · subst hvn
        rw [Function.update_same]
        refine ⟨hcur_lt, ?_, ?_⟩
        · rw [hV s.current, if_neg hcune]
          exact inv.hcur_vis
        · rw [Function.update_noteq hcune, Function.update_same]
          have := hp2 s.current hcur_lt inv.hcur_vis
          omega
      · rw [hV v, if_neg hvn] at hvv
        obtain ⟨q1, q2, q3⟩ := hp1 v hvlt hvv hv0
        have hpvn : par v ≠ next := by
          intro h
          rw [h, hnv] at q2
          exact Bool.noConfusion q2
        rw [Function.update_noteq hvn, Function.update_noteq hpvn,
          Function.update_noteq hvn]
        exact ⟨q1, by rw [hV (par v), if_neg hpvn]; exact q2, q3⟩
    · intro v hvlt hvv
      by_cases hvn : v = next
      · subst hvn
        rw [Function.update_same]
      · rw [Function.update_noteq hvn]
        rw [hV v, if_neg hvn] at hvv
        exact Nat.le_succ_of_le (hp2 v hvlt hvv)
    · intro x hx y hy
      constructor
      · intro h
        have hsplit : (mazeAdj cols rows s.cells x y ∨ mazeAdj cols rows s.cells y x) ∨
            ((x = a ∧ y = a + cols) ∨ (x = a + cols ∧ y = a)) := by
          rcases h with h | h
          · rw [hadj x y] at h
            rcases h with h | h | h
            · exact Or.inl (Or.inl h)
            · exact Or.inr (Or.inl h)
            · exact Or.inr (Or.inr h)
          · rw [hadj y x] at h
            rcases h with h | h | h
            · exact Or.inl (Or.inr h)
            · exact Or.inr (Or.inr ⟨h.2, h.1⟩)
            · exact Or.inr (Or.inl ⟨h.2, h.1⟩)
        rcases hsplit with hold | hP
        · rw [hp3 x hx y hy] at hold
          rcases hold with ⟨hv1, h0, hpe⟩ | ⟨hv1, h0, hpe⟩
          · have hyn : y ≠ next := by
              intro hcontra
              rw [hcontra, hnv] at hv1
              exact Bool.noConfusion hv1
            exact Or.inl ⟨hvmono y hv1, h0,
              by rw [Function.update_noteq hyn]; exact hpe⟩
          · have hxn : x ≠ next := by
              intro hcontra
              rw [hcontra, hnv] at hv1
              exact Bool.noConfusion hv1
            exact Or.inr ⟨hvmono x hv1, h0,
              by rw [Function.update_noteq hxn]; exact hpe⟩
        · rcases hpair with ⟨hcur, hnxt⟩ | ⟨hcur, hnxt⟩
          · rcases hP with ⟨hx1, hy1⟩ | ⟨hx1, hy1⟩
            · refine Or.inr ⟨?_, by omega, ?_⟩
              · rw [hV x, if_pos (by omega)]
              · have hxeq : x = next := by omega
                rw [hxeq, Function.update_same]
                omega
            · refine Or.inl ⟨?_, by omega, ?_⟩
              · rw [hV y, if_pos (by omega)]
              · have hyeq : y = next := by omega
                rw [hyeq, Function.update_same]
                omega
          · rcases hP with ⟨hx1, hy1⟩ | ⟨hx1, hy1⟩
            · refine Or.inl ⟨?_, by omega, ?_⟩
              · rw [hV y, if_pos (by omega)]
              · have hyeq : y = next := by omega
                rw [hyeq, Function.update_same]
                omega
            · refine Or.inr ⟨?_, by omega, ?_⟩
              · rw [hV x, if_pos (by omega)]
              · have hxeq : x = next := by omega
                rw [hxeq, Function.update_same]
                omega
      · intro h
        rcases h with ⟨hv1, h0, hpe⟩ | ⟨hv1, h0, hpe⟩
        · by_cases hyn : y = next
          · rw [hyn, Function.update_same] at hpe
            left
            rw [hadj x y]
            right
            rcases hpair with ⟨hcur, hnxt⟩ | ⟨hcur, hnxt⟩
            · right
              constructor <;> omega
            · left
              constructor <;> omega
          · rw [Function.update_noteq hyn] at hpe
            rw [hV y, if_neg hyn] at hv1
            have hold := (hp3 x hx y hy).mpr (Or.inl ⟨hv1, h0, hpe⟩)
            rcases hold with h | h
            · left
              rw [hadj x y]
              exact Or.inl h
            · right
              rw [hadj y x]
              exact Or.inl h
        · by_cases hxn : x = next
          · rw [hxn, Function.update_same] at hpe
            left
            rw [hadj x y]
            right
            rcases hpair with ⟨hcur, hnxt⟩ | ⟨hcur, hnxt⟩
            · left
              constructor <;> omega
            · right
              constructor <;> omega
          · rw [Function.update_noteq hxn] at hpe
            rw [hV x, if_neg hxn] at hv1
            have hold := (hp3 x hx y hy).mpr (Or.inr ⟨hv1, h0, hpe⟩)
            rcases hold with h | h
            · left
              rw [hadj x y]
              exact Or.inl h
            · right
              rw [hadj y x]
              exact Or.inl h

/-- Invariant preservation for a visit step that opens a horizontal wall pair
`east a` / `west (a + 1)`; `cells2` is the updated cell list described
pointwise by the flag hypotheses. -/
theorem btinv_visit_horiz (cols rows k : Nat) (s : BTState) (inv : BTInv cols rows s k)
    (a next : Nat) (cells2 : List Cell)
    (hb : a + 1 < rows * cols) (hcol : a % cols < cols - 1)
    (hnv : (cellAt s.cells next).visited = false)
    (hpair : (s.current = a + 1 ∧ next = a) ∨ (s.current = a ∧ next = a + 1))
    (hlen2 : cells2.length = s.cells.length)
    (hN : ∀ j, (cellAt cells2 j).north = (cellAt s.cells j).north)
    (hS : ∀ j, (cellAt cells2 j).south = (cellAt s.cells j).south)
    (hE : ∀ j, (cellAt cells2 j).east =
      if j = a then false else (cellAt s.cells j).east)
    (hW : ∀ j, (cellAt cells2 j).west =
      if j = a + 1 then false else (cellAt s.cells j).west)
    (hV : ∀ j, (cellAt cells2 j).visited =
      if j = next then true else (cellAt s.cells j).visited) :
    BTInv cols rows ⟨cells2, s.current :: s.stack, next, s.vcount + 1⟩ (k + 1) := by
  have hn : 0 < rows * cols := Nat.lt_of_le_of_lt (Nat.zero_le _) hb
  obtain ⟨hc, hr⟩ := pos_pos_of_n_pos cols rows hn
  have hcune : s.current ≠ next := by rcases hpair with ⟨h1, h2⟩ | ⟨h1, h2⟩ <;> omega
  have hnext_lt : next < rows * cols := by rcases hpair with ⟨h1, h2⟩ | ⟨h1, h2⟩ <;> omega
  have hcur_lt := inv.hcur_lt
  have hn0 : next ≠ 0 := by
    intro h
    rw [h, inv.hvis0] at hnv
    exact Bool.noConfusion hnv
  have hadj := mazeAdj_insert_horiz cols rows s.cells cells2 a hc hcol hN hS hE hW
  have hmono : WallsMono s.cells cells2 := by
    intro i
    refine ⟨fun hf => ?_, fun hf => ?_, fun hf => ?_, fun hf => ?_⟩
    · rw [hN i]
      exact hf
    · rw [hS i]
      exact hf
    · rw [hW i]
      split
      · rfl
      · exact hf
    · rw [hE i]
      split
      · rfl
      · exact hf
  have hvmono : VisitedMono s.cells cells2 := by
    intro i hvi
    rw [hV i]
    split
    · rfl
    · exact hvi
  have hGle := mazeGraph_mono cols rows s.cells cells2 hmono
  have hAdjNew : (mazeGraph cols rows cells2).Adj ⟨s.current, hcur_lt⟩ ⟨next, hnext_lt⟩ := by
    rw [mazeGraph_adj]
    left
    rw [hadj]
    right
    rcases hpair with ⟨h1, h2⟩ | ⟨h1, h2⟩
    · right
      exact ⟨h1, h2⟩
    · left
      exact ⟨h1, h2⟩
  obtain ⟨par, rank, hp1, hp2, hp3⟩ := inv.hpar
  refine ⟨?_, ?_, hnext_lt, ?_, ?_, ?_, ?_, ?_, ?_, ?_, ?_, ?_⟩
  · rw [hlen2, inv.hlen]
  · have he1 : countVisited cells2 =
        countVisited (modifyCell s.cells next (fun c => { c with visited := true })) := by
      apply countVisited_pointwise
      · rw [length_modifyCell, hlen2]
      · intro i hilen
        rw [hV i]
        by_cases hin : i = next
        · rw [hin, cellAt_modifyCell_self _ _ _ (by rw [inv.hlen]; exact hnext_lt),
            if_pos rfl]
        · rw [cellAt_modifyCell_ne _ _ _ _ (fun h => hin h.symm), if_neg hin]
    rw [he1, countVisited_modify_visit s.cells next (by rw [inv.hlen]; exact hnext_lt) hnv,
      ← inv.hvc]
  · rw [hV next, if_pos rfl]
  · rw [hV 0]
    split
    · rfl
    · exact inv.hvis0
  · intro i hi
    rcases List.mem_cons.mp hi with heq | hmem
    · subst heq
      refine ⟨hcur_lt, ?_⟩
      rw [hV s.current]
      split
      · rfl
      · exact inv.hcur_vis
    · obtain ⟨q1, q2⟩ := inv.hstack i hmem
      refine ⟨q1, ?_⟩
      rw [hV i]
      split
      · rfl
      · exact q2
  · intro i hi hvis hmem hnei
    have hvold : (cellAt s.cells i).visited = true := by
      rw [hV i, if_neg hnei] at hvis
      exact hvis
    have hns : i ∉ s.stack := fun h => hmem (List.mem_cons_of_mem _ h)
    have hnc : i ≠ s.current := fun h => hmem (h ▸ List.mem_cons_self _ _)
    exact unvis_nil_mono cols rows _ _ i hvmono (inv.hfront i hi hvold hns hnc)
  · intro i hi hvf
    have hine : i ≠ next := by
      intro h
      rw [h, hV next, if_pos rfl] at hvf
      exact Bool.noConfusion hvf
    rw [hV i, if_neg hine] at hvf
    obtain ⟨w1, w2, w3, w4⟩ := inv.hunvis i hi hvf
    have hia2 : i ≠ a + 1 := by
      rcases hpair with ⟨h1, h2⟩ | ⟨h1, h2⟩
      · intro h
        have his : i = s.current := by omega
        rw [his, inv.hcur_vis] at hvf
        exact Bool.noConfusion hvf
      · intro h
        exact hine (by omega)
    have hia : i ≠ a := by
      rcases hpair with ⟨h1, h2⟩ | ⟨h1, h2⟩
      · intro h
        exact hine (by omega)
      · intro h
        have his : i = s.current := by omega
        rw [his, inv.hcur_vis] at hvf
        exact Bool.noConfusion hvf
    refine ⟨?_, ?_, ?_, ?_⟩
    · rw [hN i]
      exact w1
    · rw [hS i]
      exact w2
    · rw [hE i, if_neg hia]
      exact w3
    · rw [hW i, if_neg hia2]
      exact w4
  · intro i hi
    refine ⟨fun hcond => ?_, fun hcond => ?_⟩
    · rw [hS i, hN (i + cols)]
      exact (inv.hsym i hi).1 hcond
    · rw [hE i, hW (i + 1)]
      by_cases hia : i = a
      · rw [if_pos hia, if_pos (by omega)]
      · rw [if_neg hia, if_neg (by omega : ¬ i + 1 = a + 1)]
        exact (inv.hsym i hi).2 hcond
  · intro i hi
    refine ⟨fun h0 => ?_, fun hrw => ?_, fun h0 => ?_, fun h0 => ?_⟩
    · rw [hN i]
      exact (inv.hbound i hi).1 h0
    · rw [hS i]
      exact (inv.hbound i hi).2.1 hrw
    · rw [hW i]
      have hc1 : a % cols + 1 < cols := by
        generalize a % cols = q at hcol
        omega
      have hne2 : i ≠ a + 1 := by
        intro hcontra
        rw [hcontra, (right_arith cols a hc1).2] at h0
        generalize a % cols = q at h0
        omega
      rw [if_neg hne2]
      exact (inv.hbound i hi).2.2.1 h0
    · rw [hE i]
      have hne2 : i ≠ a := by
        intro hcontra
        rw [hcontra] at h0
        generalize a % cols = q at h0 hcol
        omega
      rw [if_neg hne2]
      exact (inv.hbound i hi).2.2.2 h0
  · intro i hi hvis
    by_cases hin : i = next
    · subst hin
      have hrc := (inv.hreach s.current hcur_lt inv.hcur_vis).mono hGle
      exact hrc.trans hAdjNew.reachable
    · rw [hV i, if_neg hin] at hvis
      exact (inv.hreach i hi hvis).mono hGle
  · refine ⟨Function.update par next s.current,
      Function.update rank next (k + 1), ?_, ?_, ?_⟩
    · intro v hvlt hvv hv0
      by_cases hvn : v = next
      · subst hvn
        rw [Function.update_same]
        refine ⟨hcur_lt, ?_, ?_⟩
        · rw [hV s.current, if_neg hcune]
          exact inv.hcur_vis
        · rw [Function.update_noteq hcune, Function.update_same]
          have := hp2 s.current hcur_lt inv.hcur_vis
          omega
      · rw [hV v, if_neg hvn] at hvv
        obtain ⟨q1, q2, q3⟩ := hp1 v hvlt hvv hv0
        have hpvn : par v ≠ next := by
          intro h
          rw [h, hnv] at q2
          exact Bool.noConfusion q2
        rw [Function.update_noteq hvn, Function.update_noteq hpvn,
          Function.update_noteq hvn]
        exact ⟨q1, by rw [hV (par v), if_neg hpvn]; exact q2, q3⟩
    · intro v hvlt hvv
      by_cases hvn : v = next
      · subst hvn
        rw [Function.update_same]
      · rw [Function.update_noteq hvn]
        rw [hV v, if_neg hvn] at hvv
        exact Nat.le_succ_of_le (hp2 v hvlt hvv)
    · intro x hx y hy
      constructor
      · intro h
        have hsplit : (mazeAdj cols rows s.cells x y ∨ mazeAdj cols rows s.cells y x) ∨
            ((x = a ∧ y = a + 1) ∨ (x = a + 1 ∧ y = a)) := by
          rcases h with h | h
          · rw [hadj x y] at h
            rcases h with h | h | h
            · exact Or.inl (Or.inl h)
            · exact Or.inr (Or.inl h)
            · exact Or.inr (Or.inr h)
          · rw [hadj y x] at h
            rcases h with h | h | h
            · exact Or.inl (Or.inr h)
            · exact Or.inr (Or.inr ⟨h.2, h.1⟩)
            · exact Or.inr (Or.inl ⟨h.2, h.1⟩)
        rcases hsplit with hold | hP
        · rw [hp3 x hx y hy] at hold
          rcases hold with ⟨hv1, h0, hpe⟩ | ⟨hv1, h0, hpe⟩
          · have hyn : y ≠ next := by
              intro hcontra
              rw [hcontra, hnv] at hv1
              exact Bool.noConfusion hv1
            exact Or.inl ⟨hvmono y hv1, h0,
              by rw [Function.update_noteq hyn]; exact hpe⟩
          · have hxn : x ≠ next := by
              intro hcontra
              rw [hcontra, hnv] at hv1
              exact Bool.noConfusion hv1
            exact Or.inr ⟨hvmono x hv1, h0,
              by rw [Function.update_noteq hxn]; exact hpe⟩
        · rcases hpair with ⟨hcur, hnxt⟩ | ⟨hcur, hnxt⟩
          · rcases hP with ⟨hx1, hy1⟩ | ⟨hx1, hy1⟩
            · refine Or.inr ⟨?_, by omega, ?_⟩
              · rw [hV x, if_pos (by omega)]
              · have hxeq : x = next := by omega
                rw [hxeq, Function.update_same]
                omega
            · refine Or.inl ⟨?_, by omega, ?_⟩
              · rw [hV y, if_pos (by omega)]
              · have hyeq : y = next := by omega
                rw [hyeq, Function.update_same]
                omega
          · rcases hP with ⟨hx1, hy1⟩ | ⟨hx1, hy1⟩
            · refine Or.inl ⟨?_, by omega, ?_⟩
              · rw [hV y, if_pos (by omega)]
              · have hyeq : y = next := by omega
                rw [hyeq, Function.update_same]
                omega
            · refine Or.inr ⟨?_, by omega, ?_⟩
              · rw [hV x, if_pos (by omega)]
              · have hxeq : x = next := by omega
                rw [hxeq, Function.update_same]
                omega
      · intro h
        rcases h with ⟨hv1, h0, hpe⟩ | ⟨hv1, h0, hpe⟩
        · by_cases hyn : y = next
          · rw [hyn, Function.update_same] at hpe
            left
            rw [hadj x y]
            right
            rcases hpair with ⟨hcur, hnxt⟩ | ⟨hcur, hnxt⟩
            · right
              constructor <;> omega
            · left
              constructor <;> omega
          · rw [Function.update_noteq hyn] at hpe
            rw [hV y, if_neg hyn] at hv1
            have hold := (hp3 x hx y hy).mpr (Or.inl ⟨hv1, h0, hpe⟩)
            rcases hold with h | h
            · left
              rw [hadj x y]
              exact Or.inl h
            · right
              rw [hadj y x]
              exact Or.inl h
        · by_cases hxn : x = next
          · rw [hxn, Function.update_same] at hpe
            left
            rw [hadj x y]
            right
            rcases hpair with ⟨hcur, hnxt⟩ | ⟨hcur, hnxt⟩
            · left
              constructor <;> omega
            · right
              constructor <;> omega
          · rw [Function.update_noteq hxn] at hpe
            rw [hV x, if_neg hxn] at hv1
            have hold := (hp3 x hx y hy).mpr (Or.inr ⟨hv1, h0, hpe⟩)
            rcases hold with h | h
            · left
              rw [hadj x y]
              exact Or.inl h
            · right
              rw [hadj y x]
              exact Or.inl h

/-- Invariant preservation for an arbitrary visit step, dispatching on the
chosen direction. -/
theorem btinv_visit (cols rows k : Nat) (s : BTState) (inv : BTInv cols rows s k)
    (next : Nat) (d : Int)
    (hmem : (next, d) ∈ get_unvisited_neighbors cols rows s.cells s.current) :
    BTInv cols rows
      ⟨modifyCell (remove_adj_walls s.cells s.current next d) next
          (fun c => { c with visited := true }),
        s.current :: s.stack, next, s.vcount + 1⟩ (k + 1) := by
  have hn : 0 < rows * cols := Nat.lt_of_le_of_lt (Nat.zero_le _) inv.hcur_lt
  obtain ⟨hc, hr⟩ := pos_pos_of_n_pos cols rows hn
  have hcl := inv.hcur_lt
  have hlen1 : (modifyCell (remove_adj_walls s.cells s.current next d) next
      (fun c => { c with visited := true })).length = s.cells.length := by
    rw [length_modifyCell, length_remove_adj_walls]
  rw [mem_unvis_iff] at hmem
  rcases hmem with ⟨h1, h2, h3, h4⟩ | ⟨h1, h2, h3, h4⟩ | ⟨h1, h2, h3, h4⟩ | ⟨h1, h2, h3, h4⟩
  · obtain ⟨hle, hadd, hdiv, hmod⟩ := up_arith cols s.current hc h1
    have hb : next + cols < rows * cols := by
      rw [h3, hadd]
      exact hcl
    have hrow : next / cols < rows - 1 := by
      have hcr : s.current / cols < rows := row_lt cols rows s.current hc hcl
      rw [h3]
      generalize (s.current - cols) / cols = q at hdiv
      generalize s.current / cols = q2 at hdiv hcr h1
      omega
    obtain ⟨hN, hS, hE, hW, hV⟩ := vert_flags cols s.cells next s.current next d hc
      (by rw [inv.hlen]; exact hb) (Or.inl ⟨h4, by rw [h3]; omega, rfl⟩)
    exact btinv_visit_vert cols rows k s inv next next _ hb hrow
      (by rw [h3]; exact h2) (Or.inl ⟨by rw [h3]; omega, rfl⟩) hlen1 hN hS hE hW hV
  · have hdow := (down_arith cols s.current hc).1
    have hb : s.current + cols < rows * cols := by
      refine idx_lt_of_row_lt cols rows (s.current + cols) hc ?_
      rw [hdow]
      generalize s.current / cols = q at h1
      omega
    obtain ⟨hN, hS, hE, hW, hV⟩ := vert_flags cols s.cells s.current s.current next d hc
      (by rw [inv.hlen]; exact hb) (Or.inr ⟨h4, rfl, h3⟩)
    exact btinv_visit_vert cols rows k s inv s.current next _ hb h1
      (by rw [h3]; exact h2) (Or.inr ⟨rfl, h3⟩) hlen1 hN hS hE hW hV
  · have hml := Nat.mod_le s.current cols
    have hmlt : s.current % cols < cols := Nat.mod_lt _ hc
    have hpos : 0 < s.current := by
      rcases Nat.eq_zero_or_pos s.current with hz | hp
      · rw [hz] at h1
        simp at h1
      · exact hp
    obtain ⟨hdiv, hmod⟩ := left_arith cols s.current hc h1
    have hb : next + 1 < rows * cols := by
      rw [h3]
      omega
    have hcol : next % cols < cols - 1 := by
      rw [h3]
      generalize (s.current - 1) % cols = q at hmod
      generalize s.current % cols = q2 at hmod hmlt h1
      omega
    obtain ⟨hN, hS, hE, hW, hV⟩ := horiz_flags s.cells next s.current next d
      (by rw [inv.hlen, h3]; omega) (Or.inl ⟨h4, by rw [h3]; omega, rfl⟩)
    exact btinv_visit_horiz cols rows k s inv next next _ hb hcol
      (by rw [h3]; exact h2) (Or.inl ⟨by rw [h3]; omega, rfl⟩) hlen1 hN hS hE hW hV
  · have hc1 : s.current % cols + 1 < cols := by
      generalize s.current % cols = q at h1
      omega
    have hb : s.current + 1 < rows * cols := by
      refine idx_lt_of_row_lt cols rows (s.current + 1) hc ?_
      rw [(right_arith cols s.current hc1).1]
      exact row_lt cols rows s.current hc hcl
    obtain ⟨hN, hS, hE, hW, hV⟩ := horiz_flags s.cells s.current s.current next d
      (by rw [inv.hlen]; exact hb) (Or.inr ⟨h4, rfl, h3⟩)
    exact btinv_visit_horiz cols rows k s inv s.current next _ hb h1
      (by rw [h3]; exact h2) (Or.inr ⟨rfl, h3⟩) hlen1 hN hS hE hW hV

/-- The visit branch of the loop preserves the invariant. -/
theorem btinv_btVisit (cols rows k : Nat) (rand : Nat → Nat) (s : BTState)
    (inv : BTInv cols rows s k)
    (hnb : (get_unvisited_neighbors cols rows s.cells s.current).length ≠ 0) :
    BTInv cols rows (btVisit cols rows rand k s) (k + 1) ∧
      (btVisit cols rows rand k s).vcount = s.vcount + 1 ∧
      (btVisit cols rows rand k s).stack = s.current :: s.stack := by
  have hlt : rand k % (get_unvisited_neighbors cols rows s.cells s.current).length <
      (get_unvisited_neighbors cols rows s.cells s.current).length :=
    Nat.mod_lt _ (Nat.pos_of_ne_zero hnb)
  have hpick : (get_unvisited_neighbors cols rows s.cells s.current).getD
      (rand k % (get_unvisited_neighbors cols rows s.cells s.current).length) (0, 0) ∈
      get_unvisited_neighbors cols rows s.cells s.current := by
    rw [List.getD_eq_getElem _ _ hlt]
    exact List.getElem_mem hlt
  have hmem : (((get_unvisited_neighbors cols rows s.cells s.current).getD
        (rand k % (get_unvisited_neighbors cols rows s.cells s.current).length) (0, 0)).1,
      ((get_unvisited_neighbors cols rows s.cells s.current).getD
        (rand k % (get_unvisited_neighbors cols rows s.cells s.current).length) (0, 0)).2) ∈
      get_unvisited_neighbors cols rows s.cells s.current := by
    rw [Prod.mk.eta]
    exact hpick
  exact ⟨btinv_visit cols rows k s inv _ _ hmem, rfl, rfl⟩

/-- The loop invariant and measure give: with fuel exceeding the measure, the
loop runs to completion and exits with every cell visited (claims C2 and C7). -/
theorem btLoop_spec (cols rows : Nat) (rand : Nat → Nat) :
    ∀ fuel k s, BTInv cols rows s k →
      2 * (rows * cols - s.vcount) + s.stack.length < fuel →
      ∃ k', BTInv cols rows (btLoop cols rows (rows * cols) rand fuel k s) k' ∧
        (btLoop cols rows (rows * cols) rand fuel k s).vcount = rows * cols := by
  intro fuel
  induction fuel with
  | zero =>
    intro k s inv hm
    omega
  | succ fuel ih =>
    intro k s inv hm
    have hvmax : s.vcount ≤ rows * cols := by
      have h1 := countVisited_le s.cells
      rw [inv.hlen] at h1
      rw [inv.hvc]
      exact h1
    by_cases hv : s.vcount < rows * cols
    · rw [btLoop, if_pos hv]
      by_cases hnb : (get_unvisited_neighbors cols rows s.cells s.current).length ≠ 0
      · rw [if_pos hnb]
        obtain ⟨inv2, hvc2, hstk2⟩ := btinv_btVisit cols rows k rand s inv hnb
        refine ih (k + 1) (btVisit cols rows rand k s) inv2 ?_
        rw [hvc2, hstk2]
        simp only [List.length_cons]
        omega
      · rw [if_neg hnb]
        have hnb' : get_unvisited_neighbors cols rows s.cells s.current = [] :=
          List.length_eq_zero.mp (by omega)
        cases hstk : s.stack with
        | nil => exact (bt_no_stuck cols rows k s inv hv hnb' hstk).elim
        | cons c rest =>
          have inv2 := btinv_pop cols rows k s inv c rest hstk hnb'
          refine ih (k + 1) ⟨s.cells, rest, c, s.vcount⟩ inv2 ?_
          have : s.stack.length = rest.length + 1 := by rw [hstk]; rfl
          simp only []
          omega
    · rw [btLoop, if_neg hv]
      exact ⟨k, inv, by omega⟩

/-! ## The freshly generated grid and the initial loop state -/

theorem init_cells_length (rows cols size : Nat) (offset : Nat × Nat) :
    (init_cells rows cols size offset).length = rows * cols := by
  unfold init_cells
  rw [List.length_flatMap]
  have hmap : (List.range rows).map (List.length ∘ fun row =>
      (List.range cols).map (fun col => Cell.init row col size offset)) =
      (List.range rows).map (fun _ => cols) := by
    apply List.map_congr_left
    intro r _
    simp
  rw [hmap, List.map_const', List.sum_replicate, List.length_range, smul_eq_mul]

theorem init_cells_allclosed (rows cols size : Nat) (offset : Nat × Nat) :
    AllClosed (init_cells rows cols size offset) := by
  intro c hc
  unfold init_cells at hc
  rw [List.mem_flatMap] at hc
  obtain ⟨r, _, hc⟩ := hc
  rw [List.mem_map] at hc
  obtain ⟨col, _, rfl⟩ := hc
  exact ⟨rfl, rfl, rfl, rfl, rfl⟩

theorem btinv_init (cols rows size : Nat) (offset : Nat × Nat)
    (hc : 0 < cols) (hr : 0 < rows) :
    BTInv cols rows
      ⟨modifyCell (init_cells rows cols size offset) 0
          (fun c => { c with visited := true }), [], 0, 1⟩ 0 := by
  have hn : 0 < rows * cols := Nat.mul_pos hr hc
  have hlen0 := init_cells_length rows cols size offset
  have h0lt : 0 < (init_cells rows cols size offset).length := by omega
  have hAC := init_cells_allclosed rows cols size offset
  have horig : ∀ i, i < rows * cols →
      (cellAt (init_cells rows cols size offset) i).visited = false ∧
      (cellAt (init_cells rows cols size offset) i).north = true ∧
      (cellAt (init_cells rows cols size offset) i).south = true ∧
      (cellAt (init_cells rows cols size offset) i).east = true ∧
      (cellAt (init_cells rows cols size offset) i).west = true := by
    intro i hi
    have hilen : i < (init_cells rows cols size offset).length := by omega
    rw [cellAt_getElem _ _ hilen]
    exact hAC _ (List.getElem_mem hilen)
  have hAt : ∀ j, cellAt (modifyCell (init_cells rows cols size offset) 0
      (fun c => { c with visited := true })) j =
      if j = 0 then
        { cellAt (init_cells rows cols size offset) 0 with visited := true }
      else cellAt (init_cells rows cols size offset) j := by
    intro j
    by_cases hj : j = 0
    · rw [hj, if_pos rfl, cellAt_modifyCell_self _ _ _ h0lt]
    · rw [if_neg hj, cellAt_modifyCell_ne _ _ _ _ (fun h => hj h.symm)]
  have hwalls : ∀ j, j < rows * cols →
      (cellAt (modifyCell (init_cells rows cols size offset) 0
        (fun c => { c with visited := true })) j).north = true ∧
      (cellAt (modifyCell (init_cells rows cols size offset) 0
        (fun c => { c with visited := true })) j).south = true ∧
      (cellAt (modifyCell (init_cells rows cols size offset) 0
        (fun c => { c with visited := true })) j).east = true ∧
      (cellAt (modifyCell (init_cells rows cols size offset) 0
        (fun c => { c with visited := true })) j).west = true := by
    intro j hj
    rw [hAt j]
    by_cases h0 : j = 0
    · rw [if_pos h0]
      obtain ⟨_, w1, w2, w3, w4⟩ := horig 0 hn
      exact ⟨w1, w2, w3, w4⟩
    · rw [if_neg h0]
      obtain ⟨_, w1, w2, w3, w4⟩ := horig j hj
      exact ⟨w1, w2, w3, w4⟩
  have hvis : ∀ j, j < rows * cols →
      ((cellAt (modifyCell (init_cells rows cols size offset) 0
        (fun c => { c with visited := true })) j).visited = true ↔ j = 0) := by
    intro j hj
    rw [hAt j]
    by_cases h0 : j = 0
    · rw [if_pos h0]
      simp [h0]
    · rw [if_neg h0]
      simp [h0, (horig j hj).1]
  refine ⟨?_, ?_, hn, ?_, ?_, ?_, ?_, ?_, ?_, ?_, ?_, ?_⟩
  · rw [length_modifyCell, hlen0]
  · rw [countVisited_modify_visit _ 0 h0lt (horig 0 hn).1]
    have hz : countVisited (init_cells rows cols size offset) = 0 := by
      apply List.countP_eq_zero.mpr
      intro c hcmem
      have := (hAC c hcmem).1
      simp [this]
    rw [hz]
  · exact (hvis 0 hn).mpr rfl
  · exact (hvis 0 hn).mpr rfl
  · intro i hi
    exact absurd hi (List.not_mem_nil i)
  · intro i hi hvisi _ hne0
    exact absurd ((hvis i hi).mp hvisi) hne0
  · intro i hi _
    exact hwalls i hi
  · intro i hi
    refine ⟨fun hcond => ?_, fun hcond => ?_⟩
    · have hb : i + cols < rows * cols :=
        idx_lt_of_row_lt cols rows (i + cols) hc
          (by rw [(down_arith cols i hc).1]; exact hcond)
      rw [(hwalls i hi).2.1, (hwalls (i + cols) hb).1]
    · have hc1 : i % cols + 1 < cols := hcond
      have hb : i + 1 < rows * cols :=
        idx_lt_of_row_lt cols rows (i + 1) hc
          (by rw [(right_arith cols i hc1).1]; exact row_lt cols rows i hc hi)
      rw [(hwalls i hi).2.2.1, (hwalls (i + 1) hb).2.2.2]
  · intro i hi
    exact ⟨fun _ => (hwalls i hi).1, fun _ => (hwalls i hi).2.1,
      fun _ => (hwalls i hi).2.2.2, fun _ => (hwalls i hi).2.2.1⟩
  · intro i hi hvisi
    have h0 : i = 0 := (hvis i hi).mp hvisi
    subst h0
    exact SimpleGraph.Reachable.refl _
  · refine ⟨id, fun _ => 0, ?_, ?_, ?_⟩
    · intro v hv hvisv hv0
      exact absurd ((hvis v hv).mp hvisv) hv0
    · intro v _ _
      exact Nat.zero_le 0
    · intro x hx y hy
      constructor
      · intro h
        exfalso
        rcases h with h | h
        · exact no_adj_of_closed cols rows _ x y
            ⟨(hwalls x hx).1, (hwalls x hx).2.1, (hwalls x hx).2.2.1,
              (hwalls x hx).2.2.2⟩ h
        · exact no_adj_of_closed cols rows _ y x
            ⟨(hwalls y hy).1, (hwalls y hy).2.1, (hwalls y hy).2.2.1,
              (hwalls y hy).2.2.2⟩ h
      · intro h
        exfalso
        rcases h with ⟨hv1, h0, _⟩ | ⟨hv1, h0, _⟩
        · exact h0 ((hvis y hy).mp hv1)
        · exact h0 ((hvis x hx).mp hv1)

/-! ## Properties of the fully generated maze -/

/-- Everything claims C2, C8, C9 need about the output of `back_tracker`. -/
structure MazeSpec (cols rows : Nat) (cells : List Cell) : Prop where
  hlen : cells.length = rows * cols
  hall : ∀ i, i < rows * cols → (cellAt cells i).visited = true
  hsym : WallSym cols rows cells
  hbound : BoundaryClosed cols rows cells
  hconn : ∀ i, (hi : i < rows * cols) →
    (mazeGraph cols rows cells).Reachable
      ⟨0, Nat.lt_of_le_of_lt (Nat.zero_le i) hi⟩ ⟨i, hi⟩
  hpar : ∃ par rank : Nat → Nat,
    (∀ v, v < rows * cols → v ≠ 0 →
      par v < rows * cols ∧ rank (par v) < rank v) ∧
    (∀ x, x < rows * cols → ∀ y, y < rows * cols →
      ((mazeAdj cols rows cells x y ∨ mazeAdj cols rows cells y x) ↔
        (y ≠ 0 ∧ par y = x) ∨ (x ≠ 0 ∧ par x = y)))

/-- Any loop state satisfying the invariant with a full visited count yields
the `MazeSpec` facts for its cell list. -/
theorem mazeSpec_of_inv (cols rows k : Nat) (s : BTState)
    (inv : BTInv cols rows s k) (hfull : s.vcount = rows * cols) :
    MazeSpec cols rows s.cells := by
  have hall : ∀ i, i < rows * cols → (cellAt s.cells i).visited = true := by
    intro i hi
    have hcnt : countVisited s.cells = s.cells.length := by
      rw [← inv.hvc, hfull, inv.hlen]
    have := all_visited_of_count s.cells hcnt i (by rw [inv.hlen]; exact hi)
    exact this
  refine ⟨inv.hlen, hall, inv.hsym, inv.hbound, fun i hi => inv.hreach i hi (hall i hi), ?_⟩
  obtain ⟨par, rank, hp1, _, hp3⟩ := inv.hpar
  refine ⟨par, rank, ?_, ?_⟩
  · intro v hv hv0
    obtain ⟨q1, _, q3⟩ := hp1 v hv (hall v hv) hv0
    exact ⟨q1, q3⟩
  · intro x hx y hy
    rw [hp3 x hx y hy]
    constructor
    · rintro (⟨_, h0, hp⟩ | ⟨_, h0, hp⟩)
      · exact Or.inl ⟨h0, hp⟩
      · exact Or.inr ⟨h0, hp⟩
    · rintro (⟨h0, hp⟩ | ⟨h0, hp⟩)
      · exact Or.inl ⟨hall y hy, h0, hp⟩
      · exact Or.inr ⟨hall x hx, h0, hp⟩

/-- Running the generator from a fresh grid produces a cell list satisfying
`MazeSpec`: the loop terminates with all cells visited (C7) and the carved
walls satisfy the structural invariants. -/
theorem back_tracker_mazeSpec (cols rows size : Nat) (offset : Nat × Nat)
    (rand : Nat → Nat) (hc : 0 < cols) (hr : 0 < rows) :
    MazeSpec cols rows
      (back_tracker cols rows (rows * cols) (init_cells rows cols size offset) rand) := by
  have inv0 := btinv_init cols rows size offset hc hr
  have hn : 0 < rows * cols := Nat.mul_pos hr hc
  obtain ⟨k', hinv, hvc⟩ := btLoop_spec cols rows rand (2 * (rows * cols)) 0
    ⟨modifyCell (init_cells rows cols size offset) 0
        (fun c => { c with visited := true }), [], 0, 1⟩ inv0 (by simp; omega)
  exact mazeSpec_of_inv cols rows k' _ hinv hvc

/-- The generator's loop terminates properly: with the fuel `2 * n_cells`
supplied by `back_tracker`, the loop reaches `visited_cells = n_cells` and
exits by its `while` condition (claim C7). -/
theorem btLoop_terminates (cols rows size : Nat) (offset : Nat × Nat)
    (rand : Nat → Nat) (hc : 0 < cols) (hr : 0 < rows) :
    (btLoop cols rows (rows * cols) rand (2 * (rows * cols)) 0
      ⟨modifyCell (init_cells rows cols size offset) 0
          (fun c => { c with visited := true }), [], 0, 1⟩).vcount = rows * cols := by
  have inv0 := btinv_init cols rows size offset hc hr
  have hn : 0 < rows * cols := Nat.mul_pos hr hc
  obtain ⟨k', hinv, hvc⟩ := btLoop_spec cols rows rand (2 * (rows * cols)) 0
    ⟨modifyCell (init_cells rows cols size offset) 0
        (fun c => { c with visited := true }), [], 0, 1⟩ inv0 (by simp; omega)
  exact hvc

/-! ## From the parent structure to tree properties -/

/-- A graph whose edges are exactly the parent links of a rank-decreasing
parent function is acyclic: the maximum-rank vertex of a cycle would need two
distinct incident edges, but both must be its own parent edge. -/
theorem acyclic_of_parent (n : Nat) (G : SimpleGraph (Fin n)) (par rank : Nat → Nat)
    (hchar : ∀ a b : Fin n, G.Adj a b ↔
      ((b.val ≠ 0 ∧ par b.val = a.val) ∨ (a.val ≠ 0 ∧ par a.val = b.val)))
    (hrank : ∀ v : Fin n, v.val ≠ 0 → rank (par v.val) < rank v.val) :
    G.IsAcyclic := by
  intro v c hc
  have hne : c.support.toFinset.Nonempty := by
    rw [List.toFinset_nonempty_iff]
    exact SimpleGraph.Walk.support_ne_nil c
  obtain ⟨u, humem, humax⟩ :=
    Finset.exists_max_image c.support.toFinset (fun x => rank x.val) hne
  rw [List.mem_toFinset] at humem
  have humax' : ∀ x ∈ c.support, rank x.val ≤ rank u.val := by
    intro x hx
    exact humax x (List.mem_toFinset.mpr hx)
  have hc' := hc.rotate humem
  have hsupsub : ∀ x, x ∈ (c.rotate humem).support → x ∈ c.support := by
    intro x hx
    rw [SimpleGraph.Walk.mem_support_iff] at hx
    rcases hx with rfl | hx
    · exact humem
    · have hrot := SimpleGraph.Walk.support_rotate c humem
      rw [hrot.mem_iff] at hx
      exact List.mem_of_mem_tail hx
  have hlen3 := hc'.three_le_length
  have hnn : ¬ (c.rotate humem).Nil := by
    rw [SimpleGraph.Walk.nil_iff_length_eq]
    omega
  obtain ⟨x, hadj1, q, hq⟩ := SimpleGraph.Walk.not_nil_iff.mp hnn
  have hqlen : (c.rotate humem).length = q.length + 1 := by
    rw [hq]
    simp
  have hqrnn : ¬ q.reverse.Nil := by
    rw [SimpleGraph.Walk.nil_iff_length_eq, SimpleGraph.Walk.length_reverse]
    omega
  obtain ⟨y, hadj2, q2, hq2⟩ := SimpleGraph.Walk.not_nil_iff.mp hqrnn
  have hxmem : x ∈ c.support := by
    apply hsupsub
    rw [hq, SimpleGraph.Walk.support_cons]
    exact List.mem_cons_of_mem _ (SimpleGraph.Walk.start_mem_support q)
  have hymem : y ∈ c.support := by
    apply hsupsub
    rw [hq, SimpleGraph.Walk.support_cons]
    apply List.mem_cons_of_mem
    have h1 : y ∈ q.reverse.support := by
      rw [hq2, SimpleGraph.Walk.support_cons]
      exact List.mem_cons_of_mem _ (SimpleGraph.Walk.start_mem_support q2)
    rw [SimpleGraph.Walk.support_reverse, List.mem_reverse] at h1
    exact h1
  have hxpar : u.val ≠ 0 ∧ par u.val = x.val := by
    rcases (hchar u x).mp hadj1 with ⟨h0, hp⟩ | ⟨h0, hp⟩
    · exfalso
      have hlt := hrank x h0
      rw [hp] at hlt
      have := humax' x hxmem
      omega
    · exact ⟨h0, hp⟩
  have hypar : u.val ≠ 0 ∧ par u.val = y.val := by
    rcases (hchar u y).mp hadj2 with ⟨h0, hp⟩ | ⟨h0, hp⟩
    · exfalso
      have hlt := hrank y h0
      rw [hp] at hlt
      have := humax' y hymem
      omega
    · exact ⟨h0, hp⟩
  have hxy : x = y := Fin.ext (by rw [← hxpar.2, ← hypar.2])
  have hnodup := hc'.edges_nodup
  have hedges : (c.rotate humem).edges = s(u, x) :: q.edges := by
    rw [hq]
    simp
  have hmem2 : s(u, y) ∈ q.edges := by
    have h1 : s(u, y) ∈ q.reverse.edges := by
      rw [hq2]
      simp
    rw [SimpleGraph.Walk.edges_reverse, List.mem_reverse] at h1
    exact h1
  rw [← hxy] at hmem2
  rw [hedges, List.nodup_cons] at hnodup
  exact hnodup.1 hmem2

/-- A graph whose edges are exactly the parent links of a rank-decreasing
parent function on `Fin n` has `n - 1` edges: edges correspond bijectively to
the non-root vertices. -/
theorem card_edges_of_parent (n : Nat) (hn : 0 < n) (G : SimpleGraph (Fin n))
    [DecidableRel G.Adj] (par rank : Nat → Nat)
    (hlt : ∀ v : Fin n, v.val ≠ 0 → par v.val < n)
    (hchar : ∀ a b : Fin n, G.Adj a b ↔
      ((b.val ≠ 0 ∧ par b.val = a.val) ∨ (a.val ≠ 0 ∧ par a.val = b.val)))
    (hrank : ∀ v : Fin n, v.val ≠ 0 → rank (par v.val) < rank v.val) :
    G.edgeFinset.card + 1 = n := by
  classical
  have hvalne : ∀ v : Fin n, v ∈ ({(⟨0, hn⟩ : Fin n)}ᶜ : Finset (Fin n)) ↔ v.val ≠ 0 := by
    intro v
    rw [Finset.mem_compl, Finset.mem_singleton]
    constructor
    · intro h hv
      exact h (Fin.ext hv)
    · intro h hv
      exact h (by rw [hv])
  have hcard : ({(⟨0, hn⟩ : Fin n)}ᶜ : Finset (Fin n)).card = G.edgeFinset.card := by
    refine Finset.card_bij
      (fun v hv => s((⟨par v.val, hlt v ((hvalne v).mp hv)⟩ : Fin n), v)) ?_ ?_ ?_
    · intro a ha
      rw [SimpleGraph.mem_edgeFinset, SimpleGraph.mem_edgeSet, hchar]
      exact Or.inl ⟨(hvalne a).mp ha, rfl⟩
    · intro a ha b hb heq
      rw [Sym2.eq_iff] at heq
      rcases heq with ⟨_, h2⟩ | ⟨h1, h2⟩
      · exact h2
      · exfalso
        have ha0 := (hvalne a).mp ha
        have hb0 := (hvalne b).mp hb
        have hra := hrank a ha0
        have hrb := hrank b hb0
        have hpa : par a.val = b.val := by
          rw [← h1]
        have hpb : par b.val = a.val := by
          have := congrArg Fin.val h2
          simp at this
          rw [this]
        rw [hpa] at hra
        rw [hpb] at hrb
        omega
    · intro e he
      induction e using Sym2.ind with
      | _ a b =>
        rw [SimpleGraph.mem_edgeFinset, SimpleGraph.mem_edgeSet, hchar] at he
        rcases he with ⟨h0, hp⟩ | ⟨h0, hp⟩
        · refine ⟨b, (hvalne b).mpr h0, ?_⟩
          exact congrArg (fun t : Fin n => s(t, b)) (Fin.ext hp)
        · refine ⟨a, (hvalne a).mpr h0, ?_⟩
          exact (congrArg (fun t : Fin n => s(t, a)) (Fin.ext hp)).trans Sym2.eq_swap
  rw [← hcard, Finset.card_compl, Finset.card_singleton, Fintype.card_fin]
  omega

/-- Reachability of every vertex from vertex 0 gives connectivity. -/
theorem mazeGraph_connected_of (cols rows : Nat) (cells : List Cell)
    (hn : 0 < rows * cols)
    (hconn : ∀ i, (hi : i < rows * cols) →
      (mazeGraph cols rows cells).Reachable
        ⟨0, Nat.lt_of_le_of_lt (Nat.zero_le i) hi⟩ ⟨i, hi⟩) :
    (mazeGraph cols rows cells).Connected := by
  have hne : Nonempty (Fin (rows * cols)) := ⟨⟨0, hn⟩⟩
  refine ⟨fun u w => ?_⟩
  have h1 := hconn u.val u.isLt
  have h2 := hconn w.val w.isLt
  exact h1.symm.trans h2

/-! ## Breadth-first search: bookkeeping lemmas -/

theorem getD_set_self {α : Type} [Inhabited α] (l : List α) (i : Nat) (v d : α)
    (h : i < l.length) : (l.set i v).getD i d = v := by
  rw [List.getD_eq_getElem?_getD, List.getElem?_set_self h]
  rfl

theorem getD_set_ne {α : Type} (l : List α) (i j : Nat) (v d : α)
    (h : i ≠ j) : (l.set i v).getD j d = l.getD j d := by
  rw [List.getD_eq_getElem?_getD, List.getElem?_set_ne h, ← List.getD_eq_getElem?_getD]

theorem getD_false_of_ge (l : List Bool) (v : Nat) (h : l.length ≤ v) :
    l.getD v false = false := by
  rw [List.getD_eq_getElem?_getD, List.getElem?_eq_none h]
  rfl

/-- Count of `true` entries of the BFS visited array. -/
def countB (l : List Bool) : Nat := l.countP id

theorem countB_le (l : List Bool) : countB l ≤ l.length :=
  List.countP_le_length _

theorem countB_set_incr (l : List Bool) (i : Nat) (h : i < l.length)
    (h0 : l.getD i false = false) : countB (l.set i true) = countB l + 1 := by
  unfold countB
  refine countP_set_incr _ l i _ h ?_ rfl
  rw [List.getD_eq_getElem l false h] at h0
  exact h0

theorem countB_replicate_set (n start : Nat) (h : start < n) :
    countB ((List.replicate n false).set start true) = 1 := by
  have hz : countB (List.replicate n false) = 0 := by
    unfold countB
    apply List.countP_eq_zero.mpr
    intro b hb
    rw [List.eq_of_mem_replicate hb]
    exact Bool.noConfusion
  rw [countB_set_incr _ start (by rwa [List.length_replicate]) ?_, hz]
  rw [List.getD_eq_getElem?_getD, List.getElem?_replicate_of_lt h]
  rfl

theorem getD_replicate_int (n v : Nat) (x : Int) :
    (List.replicate n x).getD v x = x := by
  rcases Nat.lt_or_ge v n with h | h
  · rw [List.getD_eq_getElem?_getD, List.getElem?_replicate_of_lt h]
    rfl
  · rw [List.getD_eq_getElem?_getD, List.getElem?_eq_none (by rwa [List.length_replicate])]
    rfl

/-- What the BFS neighbour scan (`bfsScan` folded over the neighbour list)
guarantees, relating the state before (`st0`) and after (`st1`). -/
structure ScanOut (current : Nat) (L : List (Nat × Int))
    (st0 st1 : List Nat × List Bool × List Int) : Prop where
  len_v : st1.2.1.length = st0.2.1.length
  len_p : st1.2.2.length = st0.2.2.length
  mono : ∀ v, st0.2.1.getD v false = true → st1.2.1.getD v false = true
  newvis : ∀ v, st1.2.1.getD v false = true →
    st0.2.1.getD v false = true ∨ ∃ d, (v, d) ∈ L
  allvis : ∀ p ∈ L, st1.2.1.getD p.1 false = true
  qsub : ∀ v ∈ st1.1, v ∈ st0.1 ∨ ∃ d, (v, d) ∈ L
  qsup : ∀ v ∈ st0.1, v ∈ st1.1
  newq : ∀ v, st1.2.1.getD v false = true → st0.2.1.getD v false = false → v ∈ st1.1
  parold : ∀ v, st0.2.1.getD v false = true →
    st1.2.2.getD v (-1) = st0.2.2.getD v (-1)
  parnew : ∀ v, st1.2.1.getD v false = true → st0.2.1.getD v false = false →
    st1.2.2.getD v (-1) = Int.ofNat current
  cnt : countB st1.2.1 + st0.1.length = countB st0.2.1 + st1.1.length
  cntmono : countB st0.2.1 ≤ countB st1.2.1
  cntnew : ∀ v, st1.2.1.getD v false = true → st0.2.1.getD v false = false →
    countB st0.2.1 + 1 ≤ countB st1.2.1

theorem scanOut_refl (current : Nat) (st : List Nat × List Bool × List Int) :
    ScanOut current [] st st := by
  refine ⟨rfl, rfl, fun v h => h, fun v h => Or.inl h, ?_, fun v h => Or.inl h,
    fun v h => h, ?_, fun v _ => rfl, ?_, rfl, Nat.le_refl _, ?_⟩
  · intro p hp
    exact absurd hp (List.not_mem_nil p)
  · intro v h1 h2
    rw [h1] at h2
    exact Bool.noConfusion h2
  · intro v h1 h2
    rw [h1] at h2
    exact Bool.noConfusion h2
  · intro v h1 h2
    rw [h1] at h2
    exact Bool.noConfusion h2

theorem scanOut_trans (current : Nat) (p : Nat × Int) (L : List (Nat × Int))
    (st0 st1 st2 : List Nat × List Bool × List Int)
    (h01 : ScanOut current [p] st0 st1) (h12 : ScanOut current L st1 st2) :
    ScanOut current (p :: L) st0 st2 := by
  refine ⟨h12.len_v.trans h01.len_v, h12.len_p.trans h01.len_p, ?_, ?_, ?_, ?_, ?_,
    ?_, ?_, ?_, ?_, ?_, ?_⟩
  · intro v h
    exact h12.mono v (h01.mono v h)
  · intro v h
    rcases h12.newvis v h with h2 | ⟨d, hd⟩
    · rcases h01.newvis v h2 with h3 | ⟨d, hd⟩
      · exact Or.inl h3
      · rcases List.mem_singleton.mp hd with rfl
        exact Or.inr ⟨d, List.mem_cons_self _ _⟩
    · exact Or.inr ⟨d, List.mem_cons_of_mem _ hd⟩
  · intro q hq
    rcases List.mem_cons.mp hq with rfl | hq2
    · exact h12.mono _ (h01.allvis q (List.mem_singleton.mpr rfl))
    · exact h12.allvis q hq2
  · intro v hv
    rcases h12.qsub v hv with h2 | ⟨d, hd⟩
    · rcases h01.qsub v h2 with h3 | ⟨d, hd⟩
      · exact Or.inl h3
      · rcases List.mem_singleton.mp hd with rfl
        exact Or.inr ⟨d, List.mem_cons_self _ _⟩
    · exact Or.inr ⟨d, List.mem_cons_of_mem _ hd⟩
  · intro v hv
    exact h12.qsup v (h01.qsup v hv)
  · intro v h1 h2
    by_cases hmid : st1.2.1.getD v false = true
    · exact h12.qsup v (h01.newq v hmid h2)
    · have hmid' : st1.2.1.getD v false = false := by
        rw [← Bool.not_eq_true]
        exact hmid
      exact h12.newq v h1 hmid'
  · intro v h
    rw [h12.parold v (h01.mono v h), h01.parold v h]
  · intro v h1 h2
    by_cases hmid : st1.2.1.getD v false = true
    · rw [h12.parold v hmid]
      exact h01.parnew v hmid h2
    · have hmid' : st1.2.1.getD v false = false := by
        rw [← Bool.not_eq_true]
        exact hmid
      exact h12.parnew v h1 hmid'
  · have a1 := h01.cnt
    have a2 := h12.cnt
    omega
  · exact Nat.le_trans h01.cntmono h12.cntmono
  · intro v h1 h2
    by_cases hmid : st1.2.1.getD v false = true
    · have := h01.cntnew v hmid h2
      have := h12.cntmono
      omega
    · have hmid' : st1.2.1.getD v false = false := by
        rw [← Bool.not_eq_true]
        exact hmid
      have := h12.cntnew v h1 hmid'
      have := h01.cntmono
      omega

theorem scanOut_step (current : Nat) (p : Nat × Int)
    (st : List Nat × List Bool × List Int)
    (hlt : p.1 < st.2.1.length) (hltp : p.1 < st.2.2.length) :
    ScanOut current [p] st (bfsScan current st p) := by
  have hget : st.2.1.getD p.1 true = st.2.1.getD p.1 false := by
    rw [List.getD_eq_getElem _ _ hlt, List.getD_eq_getElem _ _ hlt]
  unfold bfsScan
  by_cases hv : st.2.1.getD p.1 true = true
  · rw [if_pos hv]
    have hvf : st.2.1.getD p.1 false = true := by rw [← hget]; exact hv
    refine ⟨rfl, rfl, fun v h => h, fun v h => Or.inl h, ?_, fun v h => Or.inl h,
      fun v h => h, ?_, fun v _ => rfl, ?_, rfl, Nat.le_refl _, ?_⟩
    · intro q hq
      rcases List.mem_singleton.mp hq with rfl
      exact hvf
    · intro v h1 h2
      rw [h1] at h2
      exact Bool.noConfusion h2
    · intro v h1 h2
      rw [h1] at h2
      exact Bool.noConfusion h2
    · intro v h1 h2
      rw [h1] at h2
      exact Bool.noConfusion h2
  · rw [if_neg hv]
    have hvf : st.2.1.getD p.1 false = false := by
      rw [← hget, ← Bool.not_eq_true]
      exact hv
    refine ⟨List.length_set .., List.length_set .., ?_, ?_, ?_, ?_, ?_, ?_, ?_, ?_,
      ?_, ?_, ?_⟩
    · intro v h
      by_cases hvp : v = p.1
      · rw [hvp, getD_set_self _ _ _ _ hlt]
      · rw [getD_set_ne _ _ _ _ _ (fun hx => hvp hx.symm)]
        exact h
    · intro v h
      by_cases hvp : v = p.1
      · exact Or.inr ⟨p.2, by rw [hvp, Prod.mk.eta]; exact List.mem_singleton.mpr rfl⟩
      · rw [getD_set_ne _ _ _ _ _ (fun hx => hvp hx.symm)] at h
        exact Or.inl h
    · intro q hq
      rcases List.mem_singleton.mp hq with rfl
      rw [getD_set_self _ _ _ _ hlt]
    · intro v hvm
      rcases List.mem_append.mp hvm with h | h
      · exact Or.inl h
      · rcases List.mem_singleton.mp h with rfl
        exact Or.inr ⟨p.2, by rw [Prod.mk.eta]; exact List.mem_singleton.mpr rfl⟩
    · intro v hvm
      exact List.mem_append_left _ hvm
    · intro v h1 h2
      by_cases hvp : v = p.1
      · rw [hvp]
        exact List.mem_append_right _ (List.mem_singleton.mpr rfl)
      · rw [getD_set_ne _ _ _ _ _ (fun hx => hvp hx.symm)] at h1
        rw [h1] at h2
        exact Bool.noConfusion h2
    · intro v h
      have hvp : v ≠ p.1 := by
        intro hx
        rw [hx, hvf] at h
        exact Bool.noConfusion h
      rw [getD_set_ne _ _ _ _ _ (fun hx => hvp hx.symm)]
    · intro v h1 h2
      have hvp : v = p.1 := by
        by_contra hvp
        rw [getD_set_ne _ _ _ _ _ (fun hx => hvp hx.symm)] at h1
        rw [h1] at h2
        exact Bool.noConfusion h2
      rw [hvp, getD_set_self _ _ _ _ hltp]
    · rw [countB_set_incr _ _ hlt hvf, List.length_append]
      simp only [List.length_singleton]
      omega
    · rw [countB_set_incr _ _ hlt hvf]
      omega
    · intro v _ _
      rw [countB_set_incr _ _ hlt hvf]

theorem scanOut_foldl (current : Nat) (L : List (Nat × Int))
    (st : List Nat × List Bool × List Int)
    (hL : ∀ p ∈ L, p.1 < st.2.1.length ∧ p.1 < st.2.2.length) :
    ScanOut current L st (L.foldl (bfsScan current) st) := by
  induction L generalizing st with
  | nil => exact scanOut_refl current st
  | cons p L' ih =>
    rw [List.foldl_cons]
    have hp := hL p (List.mem_cons_self _ _)
    have hstep := scanOut_step current p st hp.1 hp.2
    have hrest := ih (bfsScan current st p) (fun q hq => by
      have hq2 := hL q (List.mem_cons_of_mem _ hq)
      rw [hstep.len_v, hstep.len_p]
      exact hq2)
    exact scanOut_trans current p L' st _ _ hstep hrest

/-! ## The BFS invariant and path reconstruction -/

theorem openStep_lt (cols rows : Nat) (cells : List Cell) (i j : Nat)
    (hc : 0 < cols) (hi : i < rows * cols)
    (h : openStep cols rows cells i j) : j < rows * cols := by
  rw [openStep_iff_mazeAdj] at h
  exact mazeAdj_lt cols rows cells i j hc hi h

/-- The invariant of the BFS `while` loop of `compute_path`. -/
structure BFSInv (cols rows n : Nat) (cells : List Cell) (start target : Nat)
    (queue : List Nat) (visited : List Bool) (parent : List Int) : Prop where
  hvlen : visited.length = n
  hplen : parent.length = n
  hstart : start < n
  hsvis : visited.getD start false = true
  hq : ∀ v ∈ queue, v < n ∧ visited.getD v false = true
  hreach : ∀ v, v < n → visited.getD v false = true →
    Reach cols rows cells start v
  hpar : ∀ v, v < n → visited.getD v false = true → v ≠ start →
    0 ≤ parent.getD v (-1) ∧ (parent.getD v (-1)).toNat < n ∧
    visited.getD (parent.getD v (-1)).toNat false = true ∧
    openStep cols rows cells (parent.getD v (-1)).toNat v
  hparstart : parent.getD start (-1) = -1
  hclosed : ∀ v, v < n → visited.getD v false = true → v ∈ queue ∨
    (∀ w, openStep cols rows cells v w → visited.getD w false = true)
  htq : visited.getD target false = true → target ∈ queue
  hrank : ∃ rank : Nat → Nat,
    (∀ v, v < n → visited.getD v false = true → v ≠ start →
      rank (parent.getD v (-1)).toNat < rank v) ∧
    (∀ v, v < n → visited.getD v false = true → rank v + 1 ≤ countB visited)

theorem vis_lt (n : Nat) (visited : List Bool) (hvlen : visited.length = n)
    (v : Nat) (h : visited.getD v false = true) : v < n := by
  by_contra hge
  rw [getD_false_of_ge visited v (by omega)] at h
  exact Bool.noConfusion h

theorem ofNat_ne_negone (a : Nat) : ¬ (Int.ofNat a = -1) := by
  rw [Int.ofNat_eq_coe]
  omega

theorem toNat_ofNat_eq (a : Nat) : (Int.ofNat a).toNat = a := rfl

theorem bfs_reconstruct_neg (parent : List Int) (fuel : Nat) (acc : List Nat) :
    bfs_reconstruct parent fuel (-1) acc = acc := by
  cases fuel with
  | zero => rfl
  | succ f =>
    rw [bfs_reconstruct, if_pos rfl]

theorem bfs_reconstruct_start (parent : List Int) (start : Nat)
    (hparstart : parent.getD start (-1) = -1) (acc : List Nat) (fuel : Nat)
    (hf : 0 < fuel) :
    bfs_reconstruct parent fuel (Int.ofNat start) acc = start :: acc := by
  cases fuel with
  | zero => omega
  | succ f =>
    rw [bfs_reconstruct, if_neg (ofNat_ne_negone start)]
    rw [toNat_ofNat_eq, hparstart, bfs_reconstruct_neg]

theorem bfs_reconstruct_spec (cols rows n : Nat) (cells : List Cell)
    (start : Nat) (visited : List Bool) (parent : List Int)
    (hpar : ∀ v, v < n → visited.getD v false = true → v ≠ start →
      0 ≤ parent.getD v (-1) ∧ (parent.getD v (-1)).toNat < n ∧
      visited.getD (parent.getD v (-1)).toNat false = true ∧
      openStep cols rows cells (parent.getD v (-1)).toNat v)
    (hparstart : parent.getD start (-1) = -1)
    (rank : Nat → Nat)
    (hr1 : ∀ v, v < n → visited.getD v false = true → v ≠ start →
      rank (parent.getD v (-1)).toNat < rank v) :
    ∀ m v, rank v ≤ m → v < n → visited.getD v false = true →
      ∀ acc fuel, rank v < fuel →
      ∃ l, bfs_reconstruct parent fuel (Int.ofNat v) acc = l ++ acc ∧
        l ≠ [] ∧ l.head? = some start ∧ l.getLast? = some v ∧
        List.Chain' (openStep cols rows cells) l ∧
        List.Chain' (fun a b => rank a < rank b) l ∧
        (∀ w ∈ l, w < n ∧ visited.getD w false = true) := by
  intro m
  induction m with
  | zero =>
    intro v hrm hv hvis acc fuel hfuel
    by_cases hvs : v = start
    · subst hvs
      refine ⟨[v], by rw [bfs_reconstruct_start parent v hparstart acc fuel (by omega)]; rfl,
        by simp, rfl, rfl, List.chain'_singleton v, List.chain'_singleton v, ?_⟩
      intro w hw
      rcases List.mem_singleton.mp hw with rfl
      exact ⟨hv, hvis⟩
    · exfalso
      have := hr1 v hv hvis hvs
      omega
  | succ m ih =>
    intro v hrm hv hvis acc fuel hfuel
    by_cases hvs : v = start
    · subst hvs
      refine ⟨[v], by rw [bfs_reconstruct_start parent v hparstart acc fuel (by omega)]; rfl,
        by simp, rfl, rfl, List.chain'_singleton v, List.chain'_singleton v, ?_⟩
      intro w hw
      rcases List.mem_singleton.mp hw with rfl
      exact ⟨hv, hvis⟩
    · obtain ⟨hge, hult, huvis, hustep⟩ := hpar v hv hvis hvs
      have hru := hr1 v hv hvis hvs
      cases fuel with
      | zero => omega
      | succ f =>
        have hfu : rank (parent.getD v (-1)).toNat < f := by omega
        obtain ⟨l', hl'eq, hl'ne, hl'h, hl'l, hl'c, hl'r, hl'm⟩ :=
          ih (parent.getD v (-1)).toNat (by omega) hult huvis (v :: acc) f hfu
        refine ⟨l' ++ [v], ?_, by simp, ?_, ?_, ?_, ?_, ?_⟩
        · rw [bfs_reconstruct, if_neg (ofNat_ne_negone v), toNat_ofNat_eq]
          rw [Int.ofNat_eq_coe, Int.toNat_of_nonneg hge] at hl'eq
          rw [hl'eq, List.append_assoc]
          rfl
        · rw [List.head?_append, hl'h]
          rfl
        · rw [List.getLast?_concat]
        · refine List.Chain'.append hl'c (List.chain'_singleton v) ?_
          intro x hx y hy
          simp only [hl'l, Option.mem_def, Option.some_inj] at hx
          simp only [List.head?_cons, Option.mem_def, Option.some_inj] at hy
          subst hx
          subst hy
          exact hustep
        · refine List.Chain'.append hl'r (List.chain'_singleton v) ?_
          intro x hx y hy
          simp only [hl'l, Option.mem_def, Option.some_inj] at hx
          simp only [List.head?_cons, Option.mem_def, Option.some_inj] at hy
          subst hx
          subst hy
          exact hru
        · intro w hw
          rcases List.mem_append.mp hw with h | h
          · exact hl'm w h
          · rcases List.mem_singleton.mp h with rfl
            exact ⟨hv, hvis⟩

/-- What counts as a correct BFS answer: a nonempty, duplicate-free walk
through open walls from `start` to `target`, all cells in range. -/
def PathSpec (cols rows n : Nat) (cells : List Cell) (start target : Nat)
    (p : List Nat) : Prop :=
  p ≠ [] ∧ p.head? = some start ∧ p.getLast? = some target ∧
  List.Chain' (openStep cols rows cells) p ∧ p.Nodup ∧ ∀ w ∈ p, w < n

theorem nodup_of_chain_rank (rank : Nat → Nat) (l : List Nat)
    (h : List.Chain' (fun a b => rank a < rank b) l) : l.Nodup := by
  haveI : IsTrans Nat (fun a b => rank a < rank b) :=
    ⟨fun a b c h1 h2 => Nat.lt_trans h1 h2⟩
  have hp := List.chain'_iff_pairwise.mp h
  refine List.Pairwise.imp ?_ hp
  intro a b hab heq
  rw [heq] at hab
  exact Nat.lt_irrefl _ hab

theorem bfsLoop_spec (cols rows n : Nat) (cells : List Cell) (start target : Nat)
    (hc : 0 < cols) (hn : n = rows * cols) :
    ∀ fuel queue visited parent,
      BFSInv cols rows n cells start target queue visited parent →
      2 * (n - countB visited) + queue.length < fuel →
      (bfsLoop cols rows n cells target fuel queue visited parent = none →
        ¬ Reach cols rows cells start target) ∧
      (∀ p, bfsLoop cols rows n cells target fuel queue visited parent = some p →
        PathSpec cols rows n cells start target p) := by
  intro fuel
  induction fuel with
  | zero =>
    intro queue visited parent hinv hm
    omega
  | succ f ih =>
    intro queue visited parent hinv hm
    cases queue with
    | nil =>
      have hresnil : bfsLoop cols rows n cells target (f + 1) [] visited parent
          = none := rfl
      constructor
      · intro _ hre
        have hcl : ∀ v, Reach cols rows cells start v →
            visited.getD v false = true := by
          intro v hv
          induction hv with
          | refl => exact hinv.hsvis
          | tail hab hbc ihv =>
            rename_i b c
            have hbn : b < n := vis_lt n visited hinv.hvlen b ihv
            rcases hinv.hclosed b hbn ihv with hqm | hclo
            · exact absurd hqm (List.not_mem_nil _)
            · exact hclo _ hbc
        exact absurd (hinv.htq (hcl target hre)) (List.not_mem_nil _)
      · intro p hp
        rw [hresnil] at hp
        exact Option.noConfusion hp
    | cons current rest =>
      have hcur := hinv.hq current (List.mem_cons_self _ _)
      have hres0 : bfsLoop cols rows n cells target (f + 1) (current :: rest)
          visited parent =
          if current = target then
            some (bfs_reconstruct parent (n + 1) (Int.ofNat current) [])
          else
            bfsLoop cols rows n cells target f
              ((get_neighbors cols rows cells current).foldl (bfsScan current)
                (rest, visited, parent)).1
              ((get_neighbors cols rows cells current).foldl (bfsScan current)
                (rest, visited, parent)).2.1
              ((get_neighbors cols rows cells current).foldl (bfsScan current)
                (rest, visited, parent)).2.2 := rfl
      by_cases hct : current = target
      · rw [hres0, if_pos hct]
        constructor
        · intro hnone
          exact Option.noConfusion hnone
        · intro p hp
          obtain ⟨rank, hr1, hr2⟩ := hinv.hrank
          have hcb : countB visited ≤ n := by
            have := countB_le visited
            rw [hinv.hvlen] at this
            exact this
          have hrlt : rank current < n + 1 := by
            have := hr2 current hcur.1 hcur.2
            omega
          obtain ⟨l, hleq, hlne, hlh, hll, hlc, hlr, hlm⟩ :=
            bfs_reconstruct_spec cols rows n cells start visited parent
              hinv.hpar hinv.hparstart rank hr1 (rank current) current
              (Nat.le_refl _) hcur.1 hcur.2 [] (n + 1) hrlt
          rw [List.append_nil] at hleq
          have hpl : p = l := by
            rw [hleq] at hp
            exact (Option.some_inj.mp hp).symm
          subst hpl
          refine ⟨hlne, hlh, ?_, hlc, nodup_of_chain_rank rank p hlr, ?_⟩
          · rw [hll, hct]
          · intro w hw
            exact (hlm w hw).1
      · rw [hres0, if_neg hct]
        have hLlt : ∀ q ∈ get_neighbors cols rows cells current,
            q.1 < (rest, visited, parent).2.1.length ∧
            q.1 < (rest, visited, parent).2.2.length := by
          intro q hq
          have hq1 : openStep cols rows cells current q.1 := ⟨q.2, hq⟩
          have hql : q.1 < n := by
            rw [hn]
            exact openStep_lt cols rows cells current q.1 hc
              (by rw [← hn]; exact hcur.1) hq1
          constructor
          · rw [show (rest, visited, parent).2.1 = visited from rfl, hinv.hvlen]
            exact hql
          · rw [show (rest, visited, parent).2.2 = parent from rfl, hinv.hplen]
            exact hql
        have hscan := scanOut_foldl current (get_neighbors cols rows cells current)
          (rest, visited, parent) hLlt
        set st := (get_neighbors cols rows cells current).foldl (bfsScan current)
          (rest, visited, parent) with hst
        obtain ⟨rank, hr1, hr2⟩ := hinv.hrank
        have hvlen' : st.2.1.length = n := by
          rw [hscan.len_v]
          exact hinv.hvlen
        have hplen' : st.2.2.length = n := by
          rw [hscan.len_p]
          exact hinv.hplen
        have hnewstep : ∀ v, st.2.1.getD v false = true →
            visited.getD v false = false → openStep cols rows cells current v := by
          intro v h1 h2
          rcases hscan.newvis v h1 with hvo | ⟨d, hd⟩
          · rw [hvo] at h2
            exact Bool.noConfusion h2
          · exact ⟨d, hd⟩
        have hinv' : BFSInv cols rows n cells start target st.1 st.2.1 st.2.2 := by
          refine ⟨hvlen', hplen', hinv.hstart, hscan.mono start hinv.hsvis,
            ?_, ?_, ?_, ?_, ?_, ?_, ?_⟩
          · intro v hv
            rcases hscan.qsub v hv with h | ⟨d, hd⟩
            · obtain ⟨h1, h2⟩ := hinv.hq v (List.mem_cons_of_mem _ h)
              exact ⟨h1, hscan.mono v h2⟩
            · have hop : openStep cols rows cells current v := ⟨d, hd⟩
              refine ⟨?_, hscan.allvis (v, d) hd⟩
              rw [hn]
              exact openStep_lt cols rows cells current v hc
                (by rw [← hn]; exact hcur.1) hop
          · intro v hvn hvv
            by_cases hold : visited.getD v false = true
            · exact hinv.hreach v hvn hold
            · rw [Bool.not_eq_true] at hold
              exact Relation.ReflTransGen.tail
                (hinv.hreach current hcur.1 hcur.2) (hnewstep v hvv hold)
          · intro v hvn hvv hvs
            by_cases hold : visited.getD v false = true
            · obtain ⟨a1, a2, a3, a4⟩ := hinv.hpar v hvn hold hvs
              rw [hscan.parold v hold]
              exact ⟨a1, a2, hscan.mono _ a3, a4⟩
            · rw [Bool.not_eq_true] at hold
              rw [hscan.parnew v hvv hold, toNat_ofNat_eq]
              refine ⟨by rw [Int.ofNat_eq_coe]; omega, hcur.1,
                hscan.mono current hcur.2, hnewstep v hvv hold⟩
          · rw [hscan.parold start hinv.hsvis]
            exact hinv.hparstart
          · intro v hvn hvv
            by_cases hold : visited.getD v false = true
            · by_cases hvc : v = current
              · subst hvc
                right
                intro w hw
                obtain ⟨d, hd⟩ := hw
                exact hscan.allvis (w, d) hd
              · rcases hinv.hclosed v hvn hold with hmem | hclo
                · rcases List.mem_cons.mp hmem with h | h
                  · exact absurd h hvc
                  · exact Or.inl (hscan.qsup v h)
                · right
                  intro w hw
                  exact hscan.mono w (hclo w hw)
            · rw [Bool.not_eq_true] at hold
              exact Or.inl (hscan.newq v hvv hold)
          · intro htv
            by_cases hold : visited.getD target false = true
            · rcases List.mem_cons.mp (hinv.htq hold) with h | h
              · exact absurd h.symm hct
              · exact hscan.qsup target h
            · rw [Bool.not_eq_true] at hold
              exact hscan.newq target htv hold
          · refine ⟨fun v => if visited.getD v false = true then rank v
              else rank current + 1, ?_, ?_⟩
            · intro v hvn hvv hvs
              show (if visited.getD (st.2.2.getD v (-1)).toNat false = true
                  then rank (st.2.2.getD v (-1)).toNat else rank current + 1) <
                (if visited.getD v false = true then rank v else rank current + 1)
              by_cases hold : visited.getD v false = true
              · obtain ⟨a1, a2, a3, a4⟩ := hinv.hpar v hvn hold hvs
                rw [hscan.parold v hold, if_pos hold, if_pos a3]
                exact hr1 v hvn hold hvs
              · rw [Bool.not_eq_true] at hold
                have hfneg : ¬ visited.getD v false = true := by
                  rw [hold]
                  exact Bool.false_ne_true
                rw [hscan.parnew v hvv hold, toNat_ofNat_eq, if_pos hcur.2,
                  if_neg hfneg]
                omega
            · intro v hvn hvv
              show (if visited.getD v false = true then rank v
                else rank current + 1) + 1 ≤ countB st.2.1
              by_cases hold : visited.getD v false = true
              · rw [if_pos hold]
                have h1 := hr2 v hvn hold
                have h2 : countB visited ≤ countB st.2.1 := hscan.cntmono
                omega
              · rw [Bool.not_eq_true] at hold
                have hfneg : ¬ visited.getD v false = true := by
                  rw [hold]
                  exact Bool.false_ne_true
                rw [if_neg hfneg]
                have h1 := hr2 current hcur.1 hcur.2
                have h2 : countB visited + 1 ≤ countB st.2.1 :=
                  hscan.cntnew v hvv hold
                omega
        have hmeas : 2 * (n - countB st.2.1) + st.1.length < f := by
          have hcnt : countB st.2.1 + rest.length =
              countB visited + st.1.length := hscan.cnt
          have hcm : countB visited ≤ countB st.2.1 := hscan.cntmono
          have hcb' : countB st.2.1 ≤ n := by
            have := countB_le st.2.1
            rw [hvlen'] at this
            exact this
          have hcb : countB visited ≤ n := by
            have := countB_le visited
            rw [hinv.hvlen] at this
            exact this
          have hm2 : 2 * (n - countB visited) + (rest.length + 1) < f + 1 := by
            rw [List.length_cons] at hm
            exact hm
          omega
        exact ih st.1 st.2.1 st.2.2 hinv' hmeas

theorem getD_replicate_false (n v : Nat) :
    (List.replicate n false).getD v false = false := by
  rcases Nat.lt_or_ge v n with h | h
  · rw [List.getD_eq_getElem?_getD, List.getElem?_replicate_of_lt h]
    rfl
  · rw [List.getD_eq_getElem?_getD,
      List.getElem?_eq_none (by rwa [List.length_replicate])]
    rfl

/-- The state `compute_path` hands to the BFS loop satisfies the invariant. -/
theorem bfsinv_init (cols rows n : Nat) (cells : List Cell) (start target : Nat)
    (hstart : start < n) :
    BFSInv cols rows n cells start target [start]
      ((List.replicate n false).set start true) (List.replicate n (-1)) := by
  have hsvis : ((List.replicate n false).set start true).getD start false = true :=
    getD_set_self _ _ _ _ (by rwa [List.length_replicate])
  have hvonly : ∀ v, ((List.replicate n false).set start true).getD v false = true →
      v = start := by
    intro v h
    by_contra hne
    rw [getD_set_ne _ _ _ _ _ (fun he => hne he.symm),
      getD_replicate_false] at h
    exact Bool.noConfusion h
  refine ⟨by rw [List.length_set, List.length_replicate], List.length_replicate _ _,
    hstart, hsvis, ?_, ?_, ?_, getD_replicate_int n start (-1), ?_, ?_, ?_⟩
  · intro v hv
    rcases List.mem_singleton.mp hv with rfl
    exact ⟨hstart, hsvis⟩
  · intro v hvn hvv
    rcases hvonly v hvv with rfl
    exact Relation.ReflTransGen.refl
  · intro v hvn hvv hvs
    exact absurd (hvonly v hvv) hvs
  · intro v hvn hvv
    rcases hvonly v hvv with rfl
    exact Or.inl (List.mem_singleton.mpr rfl)
  · intro htv
    rcases hvonly target htv with rfl
    exact List.mem_singleton.mpr rfl
  · refine ⟨fun _ => 0, ?_, ?_⟩
    · intro v hvn hvv hvs
      exact absurd (hvonly v hvv) hvs
    · intro v hvn hvv
      rw [countB_replicate_set n start hstart]

/-- Soundness of `compute_path`: a `None` answer means the target is
unreachable through open walls, and a returned path is a genuine
duplicate-free open-wall path from `start_cell` to `target_cell`. -/
theorem compute_path_spec (cols rows n : Nat) (cells : List Cell)
    (start target : Nat) (hc : 0 < cols) (hn : n = rows * cols)
    (hstart : start < n) :
    (compute_path cols rows n cells start target = none →
      ¬ Reach cols rows cells start target) ∧
    (∀ p, compute_path cols rows n cells start target = some p →
      PathSpec cols rows n cells start target p) := by
  have hinv := bfsinv_init cols rows n cells start target hstart
  have hm : 2 * (n - countB ((List.replicate n false).set start true)) +
      ([start] : List Nat).length < 2 * n + 1 := by
    rw [countB_replicate_set n start hstart]
    rw [List.length_singleton]
    omega
  exact bfsLoop_spec cols rows n cells start target hc hn (2 * n + 1)
    [start] ((List.replicate n false).set start true)
    (List.replicate n (-1)) hinv hm

/-- Completeness direction: if the target is reachable, `compute_path`
returns a path. -/
theorem compute_path_some_of_reach (cols rows n : Nat) (cells : List Cell)
    (start target : Nat) (hc : 0 < cols) (hn : n = rows * cols)
    (hstart : start < n) (hre : Reach cols rows cells start target) :
    ∃ p, compute_path cols rows n cells start target = some p := by
  rcases hcp : compute_path cols rows n cells start target with _ | p
  · exact absurd hre
      ((compute_path_spec cols rows n cells start target hc hn hstart).1 hcp)
  · exact ⟨p, rfl⟩

/-! ## Symmetry of open-wall steps and tree-path minimality -/

/-- Under wall symmetry, one-step passability is symmetric. -/
theorem mazeAdj_symm_of (cols rows : Nat) (cells : List Cell)
    (hsym : WallSym cols rows cells) (hc : 0 < cols) (i j : Nat)
    (hi : i < rows * cols) (h : mazeAdj cols rows cells i j) :
    mazeAdj cols rows cells j i := by
  rw [mazeAdj_iff] at h
  rw [mazeAdj_iff]
  rcases h with ⟨h1, h2, rfl⟩ | ⟨h1, h2, rfl⟩ | ⟨h1, h2, rfl⟩ | ⟨h1, h2, rfl⟩
  · obtain ⟨hle, hadd, hdiv, hmod⟩ := up_arith cols i hc h2
    have hj : i - cols < rows * cols := by omega
    have hrow := row_lt cols rows i hc hi
    have hcond : (i - cols) / cols + 1 < rows := by
      rw [hdiv]
      exact hrow
    have hs := (hsym (i - cols) hj).1 hcond
    rw [hadd] at hs
    refine Or.inr (Or.inl ⟨by rw [hs]; exact h1, ?_, by omega⟩)
    generalize hq : (i - cols) / cols = q at hdiv
    generalize hr : i / cols = r at hdiv hrow
    omega
  · have hrow : i / cols + 1 < rows := by
      generalize i / cols = q at h2 ⊢
      omega
    have hs := (hsym i hi).1 hrow
    obtain ⟨hdn, hmn⟩ := down_arith cols i hc
    refine Or.inl ⟨by rw [← hs]; exact h1, ?_, by omega⟩
    rw [hdn]
    exact Nat.succ_pos _
  · have hi1 : 0 < i := by
      have := Nat.mod_le i cols
      omega
    obtain ⟨hdl, hml⟩ := left_arith cols i hc h2
    have hj : i - 1 < rows * cols := by omega
    have hcl := col_lt cols i hc
    have hcond : (i - 1) % cols + 1 < cols := by
      rw [hml]
      exact hcl
    have hs := (hsym (i - 1) hj).2 hcond
    rw [show i - 1 + 1 = i by omega] at hs
    refine Or.inr (Or.inr (Or.inr ⟨by rw [hs]; exact h1, ?_, by omega⟩))
    generalize hq : (i - 1) % cols = q at hml
    generalize hr : i % cols = r at hml hcl
    omega
  · have h2' : i % cols + 1 < cols := by
      generalize i % cols = q at h2 ⊢
      omega
    obtain ⟨hdr, hmr⟩ := right_arith cols i h2'
    have hs := (hsym i hi).2 h2'
    refine Or.inr (Or.inr (Or.inl ⟨by rw [← hs]; exact h1, ?_, by omega⟩))
    rw [hmr]
    exact Nat.succ_pos _

/-- Every walk of the undirected open-wall graph yields directed
reachability through `get_neighbors`, thanks to wall symmetry. -/
theorem reach_of_walk (cols rows : Nat) (cells : List Cell)
    (hsym : WallSym cols rows cells) (hc : 0 < cols) :
    ∀ (a b : Fin (rows * cols)) (w : (mazeGraph cols rows cells).Walk a b),
      Reach cols rows cells a.val b.val := by
  intro a b w
  induction w with
  | nil => exact Relation.ReflTransGen.refl
  | cons h p ih =>
    rename_i u v c
    have hstep : openStep cols rows cells u.val v.val := by
      rw [openStep_iff_mazeAdj]
      rcases (mazeGraph_adj cols rows cells u v).mp h with h' | h'
      · exact h'
      · exact mazeAdj_symm_of cols rows cells hsym hc v.val u.val v.isLt h'
    exact Relation.ReflTransGen.head hstep ih

/-- A chain of open-wall steps lifts to a walk of the open-wall graph with
the same cell sequence. -/
theorem walk_of_chain (cols rows : Nat) (cells : List Cell) :
    ∀ (p : List Nat) (a b : Nat) (ha : a < rows * cols) (hb : b < rows * cols),
      p.head? = some a → p.getLast? = some b →
      List.Chain' (openStep cols rows cells) p →
      (∀ w ∈ p, w < rows * cols) →
      ∃ w : (mazeGraph cols rows cells).Walk ⟨a, ha⟩ ⟨b, hb⟩,
        w.support.map Fin.val = p ∧ w.length + 1 = p.length := by
  intro p
  induction p with
  | nil =>
    intro a b ha hb hh hl hc hm
    exact absurd hh (by simp)
  | cons x t ih =>
    intro a b ha hb hh hl hc hm
    have hax : x = a := Option.some_inj.mp (by rw [List.head?_cons] at hh; exact hh)
    subst hax
    cases t with
    | nil =>
      have hab : x = b := by
        rw [List.getLast?_singleton] at hl
        exact Option.some_inj.mp hl
      subst hab
      refine ⟨SimpleGraph.Walk.nil, ?_, rfl⟩
      rw [SimpleGraph.Walk.support_nil, List.map_singleton]
    | cons y rest =>
      have hadj : openStep cols rows cells x y := (List.chain'_cons.mp hc).1
      have hcy : List.Chain' (openStep cols rows cells) (y :: rest) :=
        (List.chain'_cons.mp hc).2
      have hy : y < rows * cols := hm y (List.mem_cons_of_mem _ (List.mem_cons_self _ _))
      have hlast : (y :: rest).getLast? = some b := by
        rw [List.getLast?_cons_cons] at hl
        exact hl
      obtain ⟨w', hw's, hw'l⟩ := ih y b hy hb rfl hlast hcy
        (fun w hw => hm w (List.mem_cons_of_mem _ hw))
      have hedge : (mazeGraph cols rows cells).Adj ⟨x, ha⟩ ⟨y, hy⟩ := by
        rw [mazeGraph_adj]
        exact Or.inl ((openStep_iff_mazeAdj cols rows cells x y).mp hadj)
      refine ⟨SimpleGraph.Walk.cons hedge w', ?_, ?_⟩
      · rw [SimpleGraph.Walk.support_cons, List.map_cons, hw's]
      · rw [SimpleGraph.Walk.length_cons, List.length_cons, ← hw'l]

/-- The generated maze's open-wall graph is acyclic. -/
theorem mazeGraph_acyclic (cols rows : Nat) (cells : List Cell)
    (hspec : MazeSpec cols rows cells) :
    (mazeGraph cols rows cells).IsAcyclic := by
  obtain ⟨par, rank, hp1, hp2⟩ := hspec.hpar
  apply acyclic_of_parent (rows * cols) _ par rank
  · intro a b
    rw [mazeGraph_adj]
    exact hp2 a.val a.isLt b.val b.isLt
  · intro v hv
    exact (hp1 v.val v.isLt hv).2

/-- In a maze satisfying the generator's invariants, any BFS answer is at
least as short as any other open-wall path with the same endpoints: the maze
is a tree, so the duplicate-free answer is its unique, minimal path. -/
theorem path_length_min (cols rows : Nat) (cells : List Cell)
    (hspec : MazeSpec cols rows cells) (hc : 0 < cols)
    (start target : Nat) (hs : start < rows * cols) (ht : target < rows * cols)
    (p q : List Nat)
    (hp : PathSpec cols rows (rows * cols) cells start target p)
    (hqne : q ≠ []) (hqh : q.head? = some start) (hql : q.getLast? = some target)
    (hqc : List.Chain' (openStep cols rows cells) q)
    (hqm : ∀ w ∈ q, w < rows * cols) :
    p.length ≤ q.length := by
  obtain ⟨hpne, hph, hpl, hpc, hpn, hpm⟩ := hp
  obtain ⟨wp, hwps, hwpl⟩ :=
    walk_of_chain cols rows cells p start target hs ht hph hpl hpc hpm
  obtain ⟨wq, hwqs, hwql⟩ :=
    walk_of_chain cols rows cells q start target hs ht hqh hql hqc hqm
  have hwp_path : wp.IsPath := by
    rw [SimpleGraph.Walk.isPath_def]
    have hnd : (wp.support.map Fin.val).Nodup := by
      rw [hwps]
      exact hpn
    exact List.Nodup.of_map _ hnd
  have hacyc := mazeGraph_acyclic cols rows cells hspec
  have hequ : (⟨wp, hwp_path⟩ : SimpleGraph.Path _ _ _) =
      ⟨wq.bypass, SimpleGraph.Walk.bypass_isPath wq⟩ :=
    hacyc.path_unique _ _
  have hweq : wp = wq.bypass := congrArg Subtype.val hequ
  have hlen : wp.length = wq.bypass.length := congrArg SimpleGraph.Walk.length hweq
  have hble := SimpleGraph.Walk.length_bypass_le wq
  omega

/-- A chain of open-wall steps witnesses reachability. -/
theorem reach_of_chain (cols rows : Nat) (cells : List Cell) :
    ∀ (p : List Nat) (a b : Nat), p.head? = some a → p.getLast? = some b →
      List.Chain' (openStep cols rows cells) p → Reach cols rows cells a b := by
  intro p
  induction p with
  | nil =>
    intro a b hh hl hc
    exact absurd hh (by simp)
  | cons x t ih =>
    intro a b hh hl hc
    have hax : x = a := Option.some_inj.mp (by rw [List.head?_cons] at hh; exact hh)
    subst hax
    cases t with
    | nil =>
      have hab : x = b := by
        rw [List.getLast?_singleton] at hl
        exact Option.some_inj.mp hl
      subst hab
      exact Relation.ReflTransGen.refl
    | cons y rest =>
      have hadj : openStep cols rows cells x y := (List.chain'_cons.mp hc).1
      have hcy : List.Chain' (openStep cols rows cells) (y :: rest) :=
        (List.chain'_cons.mp hc).2
      have hlast : (y :: rest).getLast? = some b := by
        rw [List.getLast?_cons_cons] at hl
        exact hl
      exact Relation.ReflTransGen.head hadj (ih y b rfl hlast hcy)

/-- Python subscription with a non-negative in-range index reads the cell. -/
theorem pyGet_in_range (cells : List Cell) (i : Int) (h0 : 0 ≤ i)
    (hlt : i < cells.length) : pyGet cells i = some (cellAt cells i.toNat) := by
  unfold pyGet
  rw [if_pos h0]
  have hnat : i.toNat < cells.length := by omega
  rw [List.getElem?_eq_getElem hnat, cellAt_eq_getD,
    List.getElem?_eq_getElem hnat]
  rfl

/-! ## The ten claims -/

/-- C1 (counterexample): the spec's lockstep is off by one. The freshly
initialised game is at level 1, but its grid is 4×4, not the claimed 3×3:
`__init__` sets `cols = rows = 3` and then `load_level` increments both
while moving the level from 0 to 1. -/
theorem C1_level1_grid_not_3x3 :
    (initGame (fun _ => 0) 0 0).level = 1 ∧
    (initGame (fun _ => 0) 0 0).cols = 4 ∧
    (initGame (fun _ => 0) 0 0).rows = 4 ∧
    ¬ ((initGame (fun _ => 0) 0 0).cols = 3) := by
  refine ⟨rfl, rfl, rfl, ?_⟩
  intro h
  exact absurd h (by decide)

/-- C1 (amended): level and grid dimensions move in lockstep, but at level
`L` the grid is `(L+3)×(L+3)`: the initial game is at level 1 with a 4×4
grid, each level clear (`load_level`) adds 1 to the level and to both
dimensions, 24 clears from the initial state give level 25 with a 28×28
grid, and an explicit restart (`reset_game`) returns to level 1 with a 4×4
grid, both tracked cells at 0, the pending move cleared and the agent path
recomputed for the fresh maze. -/
theorem C1_level_grid_lockstep (rand : Nat → Nat) (re : Nat) (now : Int)
    (g : MazeGame) (rands : Nat → Nat → Nat) (res : Nat → Nat) (nows : Nat → Int)
    (clears : Nat → MazeGame)
    (h0 : clears 0 = initGame rand re now)
    (hstep : ∀ k, clears (k + 1) = load_level (clears k) (rands k) (res k) (nows k)) :
    ((initGame rand re now).level = 1 ∧ (initGame rand re now).cols = 4 ∧
      (initGame rand re now).rows = 4) ∧
    (∀ g' r' e' t', (load_level g' r' e' t').level = g'.level + 1 ∧
      (load_level g' r' e' t').cols = g'.cols + 1 ∧
      (load_level g' r' e' t').rows = g'.rows + 1) ∧
    (∀ k, (clears k).level = k + 1 ∧ (clears k).cols = k + 4 ∧
      (clears k).rows = k + 4) ∧
    ((clears 24).level = 25 ∧ (clears 24).cols = 28 ∧ (clears 24).rows = 28) ∧
    ((reset_game g rand re now).level = 1 ∧
      (reset_game g rand re now).cols = 4 ∧
      (reset_game g rand re now).rows = 4 ∧
      (reset_game g rand re now).n_cells = 16 ∧
      (reset_game g rand re now).current_cell = 0 ∧
      (reset_game g rand re now).agent_cell = 0 ∧
      (reset_game g rand re now).player_next_move = WAITING ∧
      (reset_game g rand re now).agent_path =
        compute_path 4 4 16 ((reset_game g rand re now).maze_cells) 0 (re % 16)) := by
  have hlock : ∀ k, (clears k).level = k + 1 ∧ (clears k).cols = k + 4 ∧
      (clears k).rows = k + 4 := by
    intro k
    induction k with
    | zero =>
      rw [h0]
      exact ⟨rfl, rfl, rfl⟩
    | succ k ih =>
      rw [hstep k]
      refine ⟨?_, ?_, ?_⟩
      · rw [show (load_level (clears k) (rands k) (res k) (nows k)).level =
          (clears k).level + 1 from rfl, ih.1]
      · rw [show (load_level (clears k) (rands k) (res k) (nows k)).cols =
          (clears k).cols + 1 from rfl, ih.2.1]
      · rw [show (load_level (clears k) (rands k) (res k) (nows k)).rows =
          (clears k).rows + 1 from rfl, ih.2.2]
  refine ⟨⟨rfl, rfl, rfl⟩, fun g' r' e' t' => ⟨rfl, rfl, rfl⟩, hlock,
    hlock 24, rfl, rfl, rfl, rfl, rfl, rfl, rfl, rfl⟩

theorem C1_level_grid_lockstep_witness :
    ((fun k => Nat.rec (motive := fun _ => MazeGame) (initGame (fun _ => 0) 0 0)
        (fun _ g => load_level g (fun _ => 0) 0 0) k) 0 =
      initGame (fun _ => 0) 0 0) ∧
    ((fun k => Nat.rec (motive := fun _ => MazeGame) (initGame (fun _ => 0) 0 0)
        (fun _ g => load_level g (fun _ => 0) 0 0) k) 24).level = 25 := by
  refine ⟨rfl, ?_⟩
  exact (C1_level_grid_lockstep (fun _ => 0) 0 0
    (initGame (fun _ => 0) 0 0) (fun _ => fun _ => 0) (fun _ => 0) (fun _ => 0)
    (fun k => Nat.rec (motive := fun _ => MazeGame) (initGame (fun _ => 0) 0 0)
      (fun _ g => load_level g (fun _ => 0) 0 0) k)
    rfl (fun k => rfl)).2.2.2.1.1

/-- C2: for every grid with at least one row and one column, the open-wall
graph of the generated maze is a spanning tree: connected, acyclic, and
with exactly `n_cells - 1` open edges. -/
theorem C2_spanning_tree (cols rows size : Nat) (offset : Nat × Nat)
    (rand : Nat → Nat) (hc : 0 < cols) (hr : 0 < rows) :
    (mazeGraph cols rows (back_tracker cols rows (rows * cols)
        (init_cells rows cols size offset) rand)).IsTree ∧
    (mazeGraph cols rows (back_tracker cols rows (rows * cols)
        (init_cells rows cols size offset) rand)).edgeFinset.card + 1 =
      rows * cols := by
  have hspec := back_tracker_mazeSpec cols rows size offset rand hc hr
  have hn : 0 < rows * cols := Nat.mul_pos hr hc
  have hconn := mazeGraph_connected_of cols rows _ hn hspec.hconn
  have hacyc := mazeGraph_acyclic cols rows _ hspec
  refine ⟨⟨hconn, hacyc⟩, ?_⟩
  obtain ⟨par, rank, hp1, hp2⟩ := hspec.hpar
  exact card_edges_of_parent (rows * cols) hn _ par rank
    (fun v hv => (hp1 v.val v.isLt hv).1)
    (fun a b => by rw [mazeGraph_adj]; exact hp2 a.val a.isLt b.val b.isLt)
    (fun v hv => (hp1 v.val v.isLt hv).2)

theorem C2_spanning_tree_witness :
    0 < 1 ∧
    (mazeGraph 1 1 (back_tracker 1 1 (1 * 1)
        (init_cells 1 1 0 (0, 0)) (fun _ => 0))).edgeFinset.card + 1 = 1 * 1 :=
  ⟨by decide,
    (C2_spanning_tree 1 1 0 (0, 0) (fun _ => 0) (by decide) (by decide)).2⟩

/-- C7: the generation loop terminates for every non-degenerate grid: with
the fuel `back_tracker` provides it ends with `visited_cells = n_cells`;
the visit branch visits exactly one new cell and pushes the stack, the
pop branch pops exactly the top of the stack, a state satisfying the loop
invariant is never stuck (the stack is non-empty while unvisited cells
remain), and the loop exits exactly when the visited count reaches
`n_cells`. -/
theorem C7_generator_termination (cols rows size : Nat) (offset : Nat × Nat)
    (rand : Nat → Nat) (hc : 0 < cols) (hr : 0 < rows) :
    (btLoop cols rows (rows * cols) rand (2 * (rows * cols)) 0
      ⟨modifyCell (init_cells rows cols size offset) 0
          (fun c => { c with visited := true }), [], 0, 1⟩).vcount = rows * cols ∧
    (∀ k s, (btVisit cols rows rand k s).vcount = s.vcount + 1 ∧
      (btVisit cols rows rand k s).stack = s.current :: s.stack) ∧
    (∀ fuel k cells stack cur vc c rest, vc < rows * cols →
      get_unvisited_neighbors cols rows cells cur = [] → stack = c :: rest →
      btLoop cols rows (rows * cols) rand (fuel + 1) k ⟨cells, stack, cur, vc⟩ =
        btLoop cols rows (rows * cols) rand fuel (k + 1) ⟨cells, rest, c, vc⟩) ∧
    (∀ k s, BTInv cols rows s k → s.vcount < rows * cols →
      get_unvisited_neighbors cols rows s.cells s.current = [] →
      s.stack ≠ []) ∧
    (∀ fuel k s, rows * cols ≤ s.vcount →
      btLoop cols rows (rows * cols) rand (fuel + 1) k s = s) := by
  refine ⟨btLoop_terminates cols rows size offset rand hc hr,
    fun k s => ⟨rfl, rfl⟩, ?_, ?_, ?_⟩
  · intro fuel k cells stack cur vc c rest hvc hnb hstk
    subst hstk
    simp only [btLoop]
    rw [hnb]
    simp [hvc]
  · intro k s inv hvc hnb hstk
    exact bt_no_stuck cols rows k s inv hvc hnb hstk
  · intro fuel k s hge
    rw [btLoop]
    rw [if_neg (show ¬ s.vcount < rows * cols by omega)]

theorem C7_generator_termination_witness :
    0 < 1 ∧
    (btLoop 1 1 (1 * 1) (fun _ => 0) (2 * (1 * 1)) 0
      ⟨modifyCell (init_cells 1 1 0 (0, 0)) 0
          (fun c => { c with visited := true }), [], 0, 1⟩).vcount = 1 * 1 :=
  ⟨by decide,
    (C7_generator_termination 1 1 0 (0, 0) (fun _ => 0)
      (by decide) (by decide)).1⟩

/-- C8: every cell of a fresh grid has all four walls closed; walls are
only removed in matching pairs (`remove_adj_walls` clears exactly the two
facing flags for each direction); and after generation the wall flags are
symmetric across every shared boundary. -/
theorem C8_wall_pairing (cols rows size : Nat) (offset : Nat × Nat)
    (rand : Nat → Nat) (hc : 0 < cols) (hr : 0 < rows) :
    AllClosed (init_cells rows cols size offset) ∧
    (∀ cells cur next,
      remove_adj_walls cells cur next UP =
        modifyCell (modifyCell cells cur (fun c => { c with north := false }))
          next (fun c => { c with south := false }) ∧
      remove_adj_walls cells cur next DOWN =
        modifyCell (modifyCell cells cur (fun c => { c with south := false }))
          next (fun c => { c with north := false }) ∧
      remove_adj_walls cells cur next LEFT =
        modifyCell (modifyCell cells cur (fun c => { c with west := false }))
          next (fun c => { c with east := false }) ∧
      remove_adj_walls cells cur next RIGHT =
        modifyCell (modifyCell cells cur (fun c => { c with east := false }))
          next (fun c => { c with west := false })) ∧
    WallSym cols rows (back_tracker cols rows (rows * cols)
      (init_cells rows cols size offset) rand) :=
  ⟨init_cells_allclosed rows cols size offset,
    fun cells cur next =>
      ⟨remove_adj_walls_UP cells cur next, remove_adj_walls_DOWN cells cur next,
        remove_adj_walls_LEFT cells cur next, remove_adj_walls_RIGHT cells cur next⟩,
    (back_tracker_mazeSpec cols rows size offset rand hc hr).hsym⟩

theorem C8_wall_pairing_witness :
    0 < 1 ∧ AllClosed (init_cells 1 1 0 (0, 0)) :=
  ⟨by decide,
    (C8_wall_pairing 1 1 0 (0, 0) (fun _ => 0) (by decide) (by decide)).1⟩

/-- C3 (counterexample): the spec's claimed `PathNotFound` failure does not
exist.  On a concrete 1×2 grid with every wall closed, cell 1 is unreachable
from cell 0, yet `compute_path` returns the absent path `None` (the Python
function falls off the loop and implicitly returns `None`) instead of
raising any error. -/
theorem C3_returns_none_not_error :
    compute_path 2 1 2 [Cell.init 0 0 0 (0, 0), Cell.init 0 1 0 (0, 0)] 0 1 =
      none ∧
    ¬ Reach 2 1 [Cell.init 0 0 0 (0, 0), Cell.init 0 1 0 (0, 0)] 0 1 := by
  constructor
  · rfl
  · exact (compute_path_spec 2 1 2
      [Cell.init 0 0 0 (0, 0), Cell.init 0 1 0 (0, 0)] 0 1
      (by decide) (by decide) (by decide)).1 rfl

/-- C3 (amended): when the target is unreachable through open walls,
`compute_path` returns `None` (Python's implicit return) — and it returns
`None` exactly in that case; it never returns a partial path, but neither
does it raise a `PathNotFound` error, which does not exist in the code. -/
theorem C3_none_iff_unreachable (cols rows n : Nat) (cells : List Cell)
    (start target : Nat) (hc : 0 < cols) (hn : n = rows * cols)
    (hstart : start < n) :
    compute_path cols rows n cells start target = none ↔
      ¬ Reach cols rows cells start target := by
  constructor
  · exact (compute_path_spec cols rows n cells start target hc hn hstart).1
  · intro hnr
    rcases hcp : compute_path cols rows n cells start target with _ | p
    · rfl
    · exfalso
      have hps := (compute_path_spec cols rows n cells start target
        hc hn hstart).2 p hcp
      exact hnr (reach_of_chain cols rows cells p start target
        hps.2.1 hps.2.2.1 hps.2.2.2.1)

theorem C3_none_iff_unreachable_witness :
    (0 < 2 ∧ (2 : Nat) = 1 * 2 ∧ 0 < 2) ∧
    (compute_path 2 1 2 [Cell.init 0 0 0 (0, 0), Cell.init 0 1 0 (0, 0)] 0 1 =
        none ↔
      ¬ Reach 2 1 [Cell.init 0 0 0 (0, 0), Cell.init 0 1 0 (0, 0)] 0 1) :=
  ⟨⟨by decide, by decide, by decide⟩,
    C3_none_iff_unreachable 2 1 2
      [Cell.init 0 0 0 (0, 0), Cell.init 0 1 0 (0, 0)] 0 1
      (by decide) (by decide) (by decide)⟩

/-- C4: on every generated maze every cell is reachable, and `compute_path`
returns a path that starts at `start`, ends at `target`, steps only through
open walls, and is no longer than any other open-wall path between the same
cells (the maze is a tree, so this unique simple path is the shortest); on
a 1×1 maze `compute_path 0 0` returns the trivial path `[0]`. -/
theorem C4_bfs_shortest_path (cols rows size : Nat) (offset : Nat × Nat)
    (rand : Nat → Nat) (hc : 0 < cols) (hr : 0 < rows) :
    (∀ cells, cells = back_tracker cols rows (rows * cols)
        (init_cells rows cols size offset) rand →
      ∀ start target, start < rows * cols → target < rows * cols →
        ∃ p, compute_path cols rows (rows * cols) cells start target = some p ∧
          p.head? = some start ∧ p.getLast? = some target ∧
          List.Chain' (openStep cols rows cells) p ∧
          (∀ q, q ≠ [] → q.head? = some start → q.getLast? = some target →
            List.Chain' (openStep cols rows cells) q →
            (∀ w ∈ q, w < rows * cols) → p.length ≤ q.length)) ∧
    compute_path 1 1 1
      (back_tracker 1 1 1 (init_cells 1 1 size offset) rand) 0 0 = some [0] := by
  constructor
  · intro cells hcells start target hs ht
    subst hcells
    have hspec := back_tracker_mazeSpec cols rows size offset rand hc hr
    set cells := back_tracker cols rows (rows * cols)
      (init_cells rows cols size offset) rand with hcells
    have hru : (mazeGraph cols rows cells).Reachable ⟨start, hs⟩ ⟨target, ht⟩ :=
      (hspec.hconn start hs).symm.trans (hspec.hconn target ht)
    obtain ⟨w⟩ := hru
    have hre : Reach cols rows cells start target :=
      reach_of_walk cols rows cells hspec.hsym hc ⟨start, hs⟩ ⟨target, ht⟩ w
    obtain ⟨p, hp⟩ := compute_path_some_of_reach cols rows (rows * cols) cells
      start target hc rfl hs hre
    have hps := (compute_path_spec cols rows (rows * cols) cells
      start target hc rfl hs).2 p hp
    refine ⟨p, hp, hps.2.1, hps.2.2.1, hps.2.2.2.1, ?_⟩
    intro q hqne hqh hql hqc hqm
    exact path_length_min cols rows cells hspec hc start target hs ht p q hps
      hqne hqh hql hqc hqm
  · rfl

theorem C4_bfs_shortest_path_witness :
    0 < 1 ∧
    compute_path 1 1 1
      (back_tracker 1 1 1 (init_cells 1 1 0 (0, 0)) (fun _ => 0)) 0 0 =
      some [0] :=
  ⟨by decide,
    (C4_bfs_shortest_path 1 1 0 (0, 0) (fun _ => 0) (by decide) (by decide)).2⟩

/-- Closed form of `handle_player_movement` when the current cell is in
range: the elif chain as a nested conditional. -/
theorem hpm_eq (g : MazeGame) (c : Cell)
    (hget : pyGet g.maze_cells g.current_cell = some c) :
    handle_player_movement g = some (
      if g.player_next_move = UP then
        if c.north = false then
          { g with current_cell := g.current_cell - g.cols,
                   player_next_move := WAITING }
        else { g with player_next_move := WAITING }
      else if g.player_next_move = DOWN then
        if c.south = false then
          { g with current_cell := g.current_cell + g.cols,
                   player_next_move := WAITING }
        else { g with player_next_move := WAITING }
      else if g.player_next_move = LEFT then
        if c.west = false then
          { g with current_cell := g.current_cell - 1,
                   player_next_move := WAITING }
        else { g with player_next_move := WAITING }
      else if g.player_next_move = RIGHT then
        if c.east = false then
          { g with current_cell := g.current_cell + 1,
                   player_next_move := WAITING }
        else { g with player_next_move := WAITING }
      else { g with player_next_move := WAITING }) := by
  unfold handle_player_movement
  by_cases h1 : g.player_next_move = UP
  · rw [if_pos h1, if_pos h1, hget]
    rfl
  · rw [if_neg h1, if_neg h1]
    by_cases h2 : g.player_next_move = DOWN
    · rw [if_pos h2, if_pos h2, hget]
      rfl
    · rw [if_neg h2, if_neg h2]
      by_cases h3 : g.player_next_move = LEFT
      · rw [if_pos h3, if_pos h3, hget]
        rfl
      · rw [if_neg h3, if_neg h3]
        by_cases h4 : g.player_next_move = RIGHT
        · rw [if_pos h4, if_pos h4, hget]
          rfl
        · rw [if_neg h4, if_neg h4]

/-- C5: a pending move is honoured exactly when the matching wall flag on
the player's current cell is `false`; a closed wall leaves the cell
unchanged; and in every case the pending move is reset to the waiting
state. -/
theorem C5_movement_iff_wall (g : MazeGame) (c : Cell)
    (hget : pyGet g.maze_cells g.current_cell = some c) (hc : 0 < g.cols) :
    ∃ g', handle_player_movement g = some g' ∧
      g'.player_next_move = WAITING ∧
      (g.player_next_move = UP →
        (c.north = false → g'.current_cell = g.current_cell - g.cols) ∧
        (c.north = true → g'.current_cell = g.current_cell) ∧
        (g'.current_cell ≠ g.current_cell ↔ c.north = false)) ∧
      (g.player_next_move = DOWN →
        (c.south = false → g'.current_cell = g.current_cell + g.cols) ∧
        (c.south = true → g'.current_cell = g.current_cell) ∧
        (g'.current_cell ≠ g.current_cell ↔ c.south = false)) ∧
      (g.player_next_move = LEFT →
        (c.west = false → g'.current_cell = g.current_cell - 1) ∧
        (c.west = true → g'.current_cell = g.current_cell) ∧
        (g'.current_cell ≠ g.current_cell ↔ c.west = false)) ∧
      (g.player_next_move = RIGHT →
        (c.east = false → g'.current_cell = g.current_cell + 1) ∧
        (c.east = true → g'.current_cell = g.current_cell) ∧
        (g'.current_cell ≠ g.current_cell ↔ c.east = false)) ∧
      (g.player_next_move ≠ UP → g.player_next_move ≠ DOWN →
        g.player_next_move ≠ LEFT → g.player_next_move ≠ RIGHT →
        g'.current_cell = g.current_cell) := by
  refine ⟨_, hpm_eq g c hget, ?_, ?_, ?_, ?_, ?_, ?_⟩
  · split_ifs <;> rfl
  · intro h1
    rw [if_pos h1]
    by_cases hw : c.north = false
    · rw [if_pos hw]
      refine ⟨fun _ => rfl, ?_, fun _ => hw, ?_⟩
      · intro ht
        rw [ht] at hw
        exact Bool.noConfusion hw
      · intro _
        show g.current_cell - (g.cols : Int) ≠ g.current_cell
        omega
    · rw [if_neg hw]
      refine ⟨fun hf => absurd hf hw, fun _ => rfl, ?_, fun hf => absurd hf hw⟩
      intro hne
      exact absurd rfl hne
  · intro h2
    have h1 : ¬ g.player_next_move = UP := by rw [h2]; decide
    rw [if_neg h1, if_pos h2]
    by_cases hw : c.south = false
    · rw [if_pos hw]
      refine ⟨fun _ => rfl, ?_, fun _ => hw, ?_⟩
      · intro ht
        rw [ht] at hw
        exact Bool.noConfusion hw
      · intro _
        show g.current_cell + (g.cols : Int) ≠ g.current_cell
        omega
    · rw [if_neg hw]
      refine ⟨fun hf => absurd hf hw, fun _ => rfl, ?_, fun hf => absurd hf hw⟩
      intro hne
      exact absurd rfl hne
  · intro h3
    have h1 : ¬ g.player_next_move = UP := by rw [h3]; decide
    have h2 : ¬ g.player_next_move = DOWN := by rw [h3]; decide
    rw [if_neg h1, if_neg h2, if_pos h3]
    by_cases hw : c.west = false
    · rw [if_pos hw]
      refine ⟨fun _ => rfl, ?_, fun _ => hw, ?_⟩
      · intro ht
        rw [ht] at hw
        exact Bool.noConfusion hw
      · intro _
        show g.current_cell - (1 : Int) ≠ g.current_cell
        omega
    · rw [if_neg hw]
      refine ⟨fun hf => absurd hf hw, fun _ => rfl, ?_, fun hf => absurd hf hw⟩
      intro hne
      exact absurd rfl hne
  · intro h4
    have h1 : ¬ g.player_next_move = UP := by rw [h4]; decide
    have h2 : ¬ g.player_next_move = DOWN := by rw [h4]; decide
    have h3 : ¬ g.player_next_move = LEFT := by rw [h4]; decide
    rw [if_neg h1, if_neg h2, if_neg h3, if_pos h4]
    by_cases hw : c.east = false
    · rw [if_pos hw]
      refine ⟨fun _ => rfl, ?_, fun _ => hw, ?_⟩
      · intro ht
        rw [ht] at hw
        exact Bool.noConfusion hw
      · intro _
        show g.current_cell + (1 : Int) ≠ g.current_cell
        omega
    · rw [if_neg hw]
      refine ⟨fun hf => absurd hf hw, fun _ => rfl, ?_, fun hf => absurd hf hw⟩
      intro hne
      exact absurd rfl hne
  · intro h1 h2 h3 h4
    rw [if_neg h1, if_neg h2, if_neg h3, if_neg h4]

theorem C5_movement_iff_wall_witness :
    (pyGet [Cell.init 0 0 0 (0, 0)] 0 = some (Cell.init 0 0 0 (0, 0)) ∧
      (0 : Nat) < 1) ∧
    (∃ g', handle_player_movement
        { cols := 1, rows := 1, n_cells := 1, delay := 300, level := 1,
          elapsed_time := 0, start_time := 0, delay_time := 0, quit := false,
          game_over := false, current_cell := 0, agent_cell := 0, exit_cell := 0,
          player_next_move := UP, agent_path := some [],
          maze_cells := [Cell.init 0 0 0 (0, 0)], offset := (0, 0),
          cell_size := 50 } = some g' ∧
      g'.player_next_move = WAITING) := by
  refine ⟨⟨rfl, by decide⟩, ?_⟩
  obtain ⟨g', hsome, hwait, _⟩ := C5_movement_iff_wall
    { cols := 1, rows := 1, n_cells := 1, delay := 300, level := 1,
      elapsed_time := 0, start_time := 0, delay_time := 0, quit := false,
      game_over := false, current_cell := 0, agent_cell := 0, exit_cell := 0,
      player_next_move := UP, agent_path := some [],
      maze_cells := [Cell.init 0 0 0 (0, 0)], offset := (0, 0),
      cell_size := 50 } (Cell.init 0 0 0 (0, 0)) rfl (by decide)
  exact ⟨g', hsome, hwait⟩

/-- C6: each tick of the agent scheduler records the freshly sampled delay
threshold; it pops exactly the front cell of the path onto the agent and
resets the step timestamp precisely when the path is non-empty and the
elapsed time meets the threshold; an empty or exhausted path, or
insufficient elapsed time, changes nothing but the recorded threshold. -/
theorem C6_agent_scheduler (g : MazeGame) (now r : Int) :
    (handle_agent_movement g now r).delay = r ∧
    (∀ c rest, g.agent_path = some (c :: rest) → now - g.delay_time ≥ r →
      handle_agent_movement g now r =
        { g with delay := r, agent_cell := Int.ofNat c,
                 agent_path := some rest, delay_time := now }) ∧
    ((g.agent_path = none ∨ g.agent_path = some []) →
      handle_agent_movement g now r = { g with delay := r }) ∧
    (now - g.delay_time < r →
      handle_agent_movement g now r = { g with delay := r }) := by
  obtain ⟨gcols, grows, gn, gdelay, glevel, gel, gst, gdt, gq, ggo, gcc, gac,
    gec, gpm, gap, gmc, goff, gcs⟩ := g
  rcases gap with _ | l
  · refine ⟨?_, ?_, ?_, ?_⟩
    · simp [handle_agent_movement, pathTruthy]
    · intro c rest h
      exact Option.noConfusion h
    · intro _
      simp [handle_agent_movement, pathTruthy]
    · intro _
      simp [handle_agent_movement, pathTruthy]
  · rcases l with _ | ⟨c0, rest0⟩
    · refine ⟨?_, ?_, ?_, ?_⟩
      · simp [handle_agent_movement, pathTruthy]
      · intro c rest h
        simp at h
      · intro _
        simp [handle_agent_movement, pathTruthy]
      · intro _
        simp [handle_agent_movement, pathTruthy]
    · by_cases hcond : now - gdt ≥ r
      · refine ⟨?_, ?_, ?_, ?_⟩
        · simp [handle_agent_movement, pathTruthy, hcond]
        · intro c rest h hge
          simp only [Option.some_inj, List.cons.injEq] at h
          obtain ⟨rfl, rfl⟩ := h
          simp [handle_agent_movement, pathTruthy, hcond]
        · intro h
          rcases h with h | h <;> simp at h
        · intro hlt
          have hlt2 : now - gdt < r := hlt
          exact absurd hcond (by omega)
      · refine ⟨?_, ?_, ?_, ?_⟩
        · simp [handle_agent_movement, pathTruthy, hcond]
        · intro c rest h hge
          exact absurd hge hcond
        · intro h
          rcases h with h | h <;> simp at h
        · intro _
          simp [handle_agent_movement, pathTruthy, hcond]

/-- C10: the player-movement handler only ever touches the player's current
cell and the pending-move field; the maze, exit, agent, path, level and
dimensions all pass through unchanged. -/
theorem C10_frame (g g' : MazeGame) (h : handle_player_movement g = some g') :
    g'.maze_cells = g.maze_cells ∧ g'.exit_cell = g.exit_cell ∧
    g'.agent_cell = g.agent_cell ∧ g'.agent_path = g.agent_path ∧
    g'.level = g.level ∧ g'.cols = g.cols ∧ g'.rows = g.rows ∧
    g'.n_cells = g.n_cells := by
  rcases hpg : pyGet g.maze_cells g.current_cell with _ | c
  · unfold handle_player_movement at h
    split_ifs at h
    · rw [hpg, Option.map_none'] at h
      exact Option.noConfusion h
    · rw [hpg, Option.map_none'] at h
      exact Option.noConfusion h
    · rw [hpg, Option.map_none'] at h
      exact Option.noConfusion h
    · rw [hpg, Option.map_none'] at h
      exact Option.noConfusion h
    · obtain rfl := Option.some_inj.mp h
      exact ⟨rfl, rfl, rfl, rfl, rfl, rfl, rfl, rfl⟩
  · rw [hpm_eq g c hpg] at h
    obtain rfl := Option.some_inj.mp h
    split_ifs <;> exact ⟨rfl, rfl, rfl, rfl, rfl, rfl, rfl, rfl⟩

theorem C10_frame_witness :
    handle_player_movement
        { cols := 1, rows := 1, n_cells := 1, delay := 300, level := 1,
          elapsed_time := 0, start_time := 0, delay_time := 0, quit := false,
          game_over := false, current_cell := 0, agent_cell := 0, exit_cell := 0,
          player_next_move := WAITING, agent_path := some [],
          maze_cells := [Cell.init 0 0 0 (0, 0)], offset := (0, 0),
          cell_size := 50 } =
      some { cols := 1, rows := 1, n_cells := 1, delay := 300, level := 1,
             elapsed_time := 0, start_time := 0, delay_time := 0, quit := false,
             game_over := false, current_cell := 0, agent_cell := 0,
             exit_cell := 0, player_next_move := WAITING, agent_path := some [],
             maze_cells := [Cell.init 0 0 0 (0, 0)], offset := (0, 0),
             cell_size := 50 } ∧
    ({ cols := 1, rows := 1, n_cells := 1, delay := 300, level := 1,
          elapsed_time := 0, start_time := 0, delay_time := 0, quit := false,
          game_over := false, current_cell := 0, agent_cell := 0, exit_cell := 0,
          player_next_move := WAITING, agent_path := some [],
          maze_cells := [Cell.init 0 0 0 (0, 0)], offset := (0, 0),
          cell_size := 50 } : MazeGame).maze_cells = [Cell.init 0 0 0 (0, 0)] := by
  have h := C10_frame
    { cols := 1, rows := 1, n_cells := 1, delay := 300, level := 1,
      elapsed_time := 0, start_time := 0, delay_time := 0, quit := false,
      game_over := false, current_cell := 0, agent_cell := 0, exit_cell := 0,
      player_next_move := WAITING, agent_path := some [],
      maze_cells := [Cell.init 0 0 0 (0, 0)], offset := (0, 0),
      cell_size := 50 }
    { cols := 1, rows := 1, n_cells := 1, delay := 300, level := 1,
      elapsed_time := 0, start_time := 0, delay_time := 0, quit := false,
      game_over := false, current_cell := 0, agent_cell := 0, exit_cell := 0,
      player_next_move := WAITING, agent_path := some [],
      maze_cells := [Cell.init 0 0 0 (0, 0)], offset := (0, 0),
      cell_size := 50 } rfl
  exact ⟨rfl, h.1⟩

/-- C9: generation never opens a wall on the grid's outer edge, and
consequently every honoured move keeps the player's cell inside
`[0, n_cells)`, with left/right moves staying in the same row. -/
theorem C9_boundary_and_range (cols rows size : Nat) (offset : Nat × Nat)
    (rand : Nat → Nat) (hc : 0 < cols) (hr : 0 < rows) :
    BoundaryClosed cols rows (back_tracker cols rows (rows * cols)
      (init_cells rows cols size offset) rand) ∧
    (∀ g g' : MazeGame, g.cols = cols → g.rows = rows →
      g.maze_cells.length = rows * cols →
      BoundaryClosed cols rows g.maze_cells →
      0 ≤ g.current_cell → g.current_cell < rows * cols →
      handle_player_movement g = some g' →
      0 ≤ g'.current_cell ∧ g'.current_cell < rows * cols ∧
      ((g.player_next_move = LEFT ∨ g.player_next_move = RIGHT) →
        g'.current_cell.toNat / cols = g.current_cell.toNat / cols)) := by
  refine ⟨(back_tracker_mazeSpec cols rows size offset rand hc hr).hbound, ?_⟩
  intro g g' hgc hgr hlen hbc h0 hlt h
  have hcc : g.current_cell = (g.current_cell.toNat : Int) := by omega
  have hkn : g.current_cell.toNat < rows * cols := by omega
  have hpg : pyGet g.maze_cells g.current_cell =
      some (cellAt g.maze_cells g.current_cell.toNat) :=
    pyGet_in_range g.maze_cells g.current_cell h0 (by rw [hlen]; exact hlt)
  rw [hpm_eq g (cellAt g.maze_cells g.current_cell.toNat) hpg] at h
  obtain rfl := Option.some_inj.mp h
  obtain ⟨hbN, hbS, hbW, hbE⟩ := hbc g.current_cell.toNat hkn
  have hrowlt := row_lt cols rows g.current_cell.toNat hc hkn
  have hcollt := col_lt cols g.current_cell.toNat hc
  split_ifs with h1 hw h2 hw h3 hw h4 hw
  · -- UP, north open
    have hdk : g.current_cell.toNat / cols ≠ 0 := by
      intro h0'
      rw [hbN h0'] at hw
      exact Bool.noConfusion hw
    obtain ⟨hle, _, _, _⟩ :=
      up_arith cols g.current_cell.toNat hc (Nat.pos_of_ne_zero hdk)
    refine ⟨?_, ?_, ?_⟩
    · show 0 ≤ g.current_cell - (g.cols : Int)
      rw [hgc]
      omega
    · show g.current_cell - (g.cols : Int) < (rows * cols : Nat)
      rw [hgc]
      omega
    · intro hlr
      rcases hlr with hd | hd
      · rw [h1] at hd
        exact absurd hd (by decide)
      · rw [h1] at hd
        exact absurd hd (by decide)
  · exact ⟨h0, hlt, fun _ => rfl⟩
  · -- DOWN, south open
    have hdk : g.current_cell.toNat / cols ≠ rows - 1 := by
      intro h0'
      rw [hbS h0'] at hw
      exact Bool.noConfusion hw
    have hrow2 : g.current_cell.toNat / cols + 1 < rows := by
      generalize g.current_cell.toNat / cols = q at hdk hrowlt
      omega
    have hnlt : g.current_cell.toNat + cols < rows * cols := by
      refine idx_lt_of_row_lt cols rows (g.current_cell.toNat + cols) hc ?_
      rw [(down_arith cols g.current_cell.toNat hc).1]
      exact hrow2
    refine ⟨?_, ?_, ?_⟩
    · show 0 ≤ g.current_cell + (g.cols : Int)
      omega
    · show g.current_cell + (g.cols : Int) < (rows * cols : Nat)
      rw [hgc]
      omega
    · intro hlr
      rcases hlr with hd | hd
      · rw [h2] at hd
        exact absurd hd (by decide)
      · rw [h2] at hd
        exact absurd hd (by decide)
  · exact ⟨h0, hlt, fun _ => rfl⟩
  · -- LEFT, west open
    have hdk : g.current_cell.toNat % cols ≠ 0 := by
      intro h0'
      rw [hbW h0'] at hw
      exact Bool.noConfusion hw
    have hklb : 0 < g.current_cell.toNat := by
      have := Nat.mod_le g.current_cell.toNat cols
      omega
    obtain ⟨hdl, _⟩ := left_arith cols g.current_cell.toNat hc
      (Nat.pos_of_ne_zero hdk)
    refine ⟨?_, ?_, ?_⟩
    · show 0 ≤ g.current_cell - (1 : Int)
      omega
    · show g.current_cell - (1 : Int) < (rows * cols : Nat)
      omega
    · intro _
      show (g.current_cell - (1 : Int)).toNat / cols =
        g.current_cell.toNat / cols
      rw [show (g.current_cell - (1 : Int)).toNat =
        g.current_cell.toNat - 1 by omega]
      exact hdl
  · exact ⟨h0, hlt, fun _ => rfl⟩
  · -- RIGHT, east open
    have hdk : g.current_cell.toNat % cols ≠ cols - 1 := by
      intro h0'
      rw [hbE h0'] at hw
      exact Bool.noConfusion hw
    have hcol2 : g.current_cell.toNat % cols + 1 < cols := by
      generalize g.current_cell.toNat % cols = q at hdk hcollt
      omega
    obtain ⟨hdr, _⟩ := right_arith cols g.current_cell.toNat hcol2
    have hnlt : g.current_cell.toNat + 1 < rows * cols := by
      refine idx_lt_of_row_lt cols rows (g.current_cell.toNat + 1) hc ?_
      rw [hdr]
      exact hrowlt
    refine ⟨?_, ?_, ?_⟩
    · show 0 ≤ g.current_cell + (1 : Int)
      omega
    · show g.current_cell + (1 : Int) < (rows * cols : Nat)
      omega
    · intro _
      show (g.current_cell + (1 : Int)).toNat / cols =
        g.current_cell.toNat / cols
      rw [show (g.current_cell + (1 : Int)).toNat =
        g.current_cell.toNat + 1 by omega]
      exact hdr
  · exact ⟨h0, hlt, fun _ => rfl⟩
  · exact ⟨h0, hlt, fun _ => rfl⟩

theorem C9_boundary_and_range_witness :
    0 < 1 ∧ BoundaryClosed 1 1 (back_tracker 1 1 (1 * 1)
      (init_cells 1 1 0 (0, 0)) (fun _ => 0)) :=
  ⟨by decide,
    (C9_boundary_and_range 1 1 0 (0, 0) (fun _ => 0) (by decide) (by decide)).1⟩
